import Mathlib

/-!
Shallow embedding, in Lean 4, of the cryptographic core of the c-jq255
library (files `jq255.c`, `blake2s.h`/`blake2s.c`, default build
`JQ = JQ255E`, i.e. the jq255e group), together with proofs about the
claims of its specification.

Modelling conventions, used consistently below:

- Byte strings are `List Nat` with entries below 256, little-endian
  (`leVal` / `leBytes` convert between byte lists and integers).
- A field element (C type `gf`, four 64-bit or eight 32-bit limbs holding
  a possibly not fully reduced representative of a residue modulo
  q = 2^255 - 18651) is modelled by the residue it represents, i.e. by
  `ZMod qv`.  Each C field routine computes a definite residue from the
  residues of its inputs, independently of the limb representation, and is
  embedded as that function on residues; e.g. `gf_mul` is multiplication in
  `ZMod qv`, and `gf_normalize` (reduction to the canonical representative)
  becomes `ZMod.val`.
- A scalar (C type `scalar`, kept fully reduced modulo the group order r)
  is modelled by `ZMod rv`.  The scalar routines that work on raw limb
  arrays rather than on residues (`uint_recode`, `uint_recode_wNAF`,
  `mul_divr_rounded`, `scalar_split`) are embedded at the level of the
  integer value of the limb array, with the wrap-arounds of the C code
  made explicit as `% 2^128`, `% 2^256`, ... where the C truncates.
- C functions returning the masks 0x00000000 / 0xFFFFFFFF are embedded
  with `Bool` results (`true` standing for the all-ones mask) except where
  the numeric value of the mask flows into arithmetic (`jq_ECDH`'s return
  value) where the 32-bit arithmetic is kept explicitly.
- The hash name argument (`const char *hash_name` in C) is modelled as the
  byte list of the name without its NUL terminator; the C cases
  `hash_name == NULL` and `hash_name[0] == 0` both correspond to the empty
  list (raw-message mode).
-/

set_option maxRecDepth 1000000

/-! ## Little-endian byte strings -/

/-- Value of a little-endian byte list (as in `dec32le`/`dec64le` chains of
the source, generalized to any length). -/
def leVal : List Nat → Nat
  | [] => 0
  | b :: t => b + 256 * leVal t

/-- The `n` little-endian bytes of `x` (as in `enc32le`/`enc64le` chains of
the source); drops bits of `x` beyond `2^(8*n)` exactly as the C stores do. -/
def leBytes : Nat → Nat → List Nat
  | 0, _ => []
  | n + 1, x => x % 256 :: leBytes n (x / 256)

theorem leBytes_length (n x : Nat) : (leBytes n x).length = n := by
  induction n generalizing x with
  | zero => rfl
  | succ m ih => simp [leBytes, ih]

theorem leBytes_lt (n x : Nat) : ∀ b ∈ leBytes n x, b < 256 := by
  induction n generalizing x with
  | zero => simp [leBytes]
  | succ m ih =>
    intro b hb
    simp only [leBytes, List.mem_cons] at hb
    rcases hb with h | h
    · omega
    · exact ih _ b h

theorem leVal_leBytes (n x : Nat) (h : x < 2 ^ (8 * n)) :
    leVal (leBytes n x) = x := by
  induction n generalizing x with
  | zero =>
    have : x = 0 := by simpa using h
    simp [this, leBytes, leVal]
  | succ m ih =>
    have hx : x / 256 < 2 ^ (8 * m) := by
      rw [Nat.div_lt_iff_lt_mul (by norm_num)]
      calc x < 2 ^ (8 * (m + 1)) := h
        _ = 2 ^ (8 * m) * 256 := by ring
    simp [leBytes, leVal, ih _ hx, Nat.mod_add_div']
    omega

theorem leVal_append (a b : List Nat) :
    leVal (a ++ b) = leVal a + 256 ^ a.length * leVal b := by
  induction a with
  | nil => simp [leVal]
  | cons x t ih => simp [leVal, ih, pow_succ]; ring

theorem leVal_lt (a : List Nat) (h : ∀ b ∈ a, b < 256) :
    leVal a < 256 ^ a.length := by
  induction a with
  | nil => simp [leVal]
  | cons x t ih =>
    have hx : x < 256 := h x (by simp)
    have ht := ih (fun b hb => h b (by simp [hb]))
    simp only [leVal, List.length_cons, pow_succ]
    calc x + 256 * leVal t < 256 + 256 * leVal t := by omega
      _ = 256 * (leVal t + 1) := by ring
      _ ≤ 256 * 256 ^ t.length := by
          have : leVal t + 1 ≤ 256 ^ t.length := ht
          exact Nat.mul_le_mul_left _ this
      _ = 256 ^ t.length * 256 := by ring

/-! ## Field layer (`gf`, residues modulo q = 2^255 - 18651)

The source is compiled with `JQ = JQ255E` (the default), so `MQ = 18651`.
-/

/-- The constant `MQ` of the source for jq255e. -/
def MQ : Nat := 18651

/-- The field modulus q = 2^255 - MQ. -/
def qv : Nat := 2 ^ 255 - MQ

instance : NeZero qv := ⟨by decide⟩

/-- A field element: the residue modulo q represented by the limbs of a C
`gf` value. -/
abbrev gf := ZMod qv

/-- Embeds `gf_add` (addition followed by partial reduction): as a residue,
the sum. -/
def gf_add (a b : gf) : gf := a + b

/-- Embeds `gf_sub`. -/
def gf_sub (a b : gf) : gf := a - b

/-- Embeds `gf_neg`. -/
def gf_neg (a : gf) : gf := -a

/-- Embeds `gf_mul` (schoolbook product, then reduction by folding the high
half with multiplier 2*MQ): as a residue, the product. -/
def gf_mul (a b : gf) : gf := a * b

/-- Embeds `gf_square`. -/
def gf_square (a : gf) : gf := a * a

/-- Embeds `gf_mul2` (left shift by 1 and fold of the top bit). -/
def gf_mul2 (a : gf) : gf := 2 * a

/-- Embeds `gf_lsh` (left shift by `n` and fold of the top bits). -/
def gf_lsh (a : gf) (n : Nat) : gf := 2 ^ n * a

/-- Embeds `gf_half`: right shift of the canonical representative by one
bit, adding back (q+1)/2 when the dropped bit was 1. -/
def gf_half (a : gf) : gf :=
  ((a.val / 2 + a.val % 2 * ((qv + 1) / 2) : Nat) : gf)

/-- Embeds `gf_select` (constant-time choice by a mask; `true` is the
all-ones mask picking `a1`). -/
def gf_select (a0 a1 : gf) (ctl : Bool) : gf := if ctl then a1 else a0

/-- Embeds `gf_condneg`. -/
def gf_condneg (a : gf) (ctl : Bool) : gf := gf_select a (gf_neg a) ctl

/-- Embeds `gf_is_zero` (which recognizes all three 256-bit representations
of the zero residue): `true` is the all-ones mask. -/
def gf_is_zero (a : gf) : Bool := a = 0

/-- Embeds `gf_equals`. -/
def gf_equals (a b : gf) : Bool := a = b

/-- Embeds `gf_normalize`: the canonical representative in 0..q-1. -/
def gf_normalize (a : gf) : Nat := a.val

/-- Embeds `gf_is_negative`: the low bit of the canonical representative
(`true` is the all-ones mask, meaning "negative"). -/
def gf_is_negative (a : gf) : Bool := a.val % 2 = 1

/-- Embeds `gf_decode` (exactly 32 bytes, little-endian; rejects values not
below q, and then yields zero together with the zero mask). -/
def gf_decode (src : List Nat) : gf × Bool :=
  if leVal src < qv then ((leVal src : gf), true) else (0, false)

/-- Embeds `gf_encode`: 32 little-endian bytes of the fully reduced
(canonical) representative. -/
def gf_encode (a : gf) : List Nat := leBytes 32 a.val

/-- Embeds `gf_xsquare`: `n` successive squarings. -/
def gf_xsquare (a : gf) : Nat → gf
  | 0 => a
  | n + 1 => gf_xsquare (gf_square a) n

/-- Embeds `gf_prep240`: returns `a^(2^240-1)` together with the window
`(a, a^2, a^3)`, computed by the addition chain of the source. -/
def gf_prep240 (a : gf) : gf × (gf × gf × gf) :=
  let w0 := a
  let w1 := gf_square w0
  let w2 := gf_mul w0 w1
  let x1 := gf_mul (gf_xsquare w2 2) w2
  let y5 := gf_mul (gf_square x1) w0
  let x2 := gf_xsquare (gf_mul (gf_xsquare y5 5) y5) 5
  let y15 := gf_mul y5 x2
  let y30 := gf_mul y15 (gf_xsquare y15 15)
  let y60 := gf_mul y30 (gf_xsquare y30 30)
  let y120 := gf_mul y60 (gf_xsquare y60 60)
  let y240 := gf_mul y120 (gf_xsquare y120 120)
  (y240, (w0, w1, w2))

/-- One window step of the exponentiation loops of `gf_inv`/`gf_sqrt`:
two squarings then a multiplication by the window entry selected by the
2-bit chunk `k` (no multiplication when the chunk is zero). -/
def gf_expstep (win : gf × gf × gf) (x : gf) (k : Nat) : gf :=
  let x := gf_xsquare x 2
  if k = 0 then x
  else if k = 1 then gf_mul x win.1
  else if k = 2 then gf_mul x win.2.1
  else gf_mul x win.2.2

/-- The exponentiation loop of `gf_inv`/`gf_sqrt`: consumes the 2-bit
chunks of `e` at the shift amounts listed in `is`. -/
def gf_exploop (win : gf × gf × gf) (e : Nat) : List Nat → gf → gf
  | [], x => x
  | i :: t, x => gf_exploop win e t (gf_expstep win x (e / 2 ^ i % 4))

/-- Embeds `gf_inv` (Fermat inversion `a^(q-2)` through the 240-ones
window; returns zero for input zero). -/
def gf_inv (a : gf) : gf :=
  let p := gf_prep240 a
  let e := 2 ^ 32 - MQ - 2
  let x := gf_exploop p.2 e [13, 11, 9, 7, 5, 3, 1] p.1
  gf_mul (gf_square x) p.2.1

/-- Embeds `gf_sqrt` for jq255e (q = 5 mod 8, hence Atkin's algorithm:
b = (2a)^((q-5)/8), c = 2*a*b^2, candidate root a*b*(c-1); the candidate is
normalized to the non-negative square root, verified by squaring, and
replaced by zero - with a zero mask - if the verification fails).
`true` is the all-ones (success) mask. -/
def gf_sqrt (a : gf) : gf × Bool :=
  let p := gf_prep240 (gf_mul2 a)
  let e := (2 ^ 32 - MQ - 5) / 2 ^ 3
  let b := gf_exploop p.2 e [10, 8, 6, 4, 2, 0] p.1
  let y := gf_mul b a
  let x := gf_sub (gf_mul2 (gf_mul y b)) 1
  let x := gf_mul y x
  let x := gf_condneg x (gf_is_negative x)
  let ok := gf_equals (gf_square x) a
  (gf_select 0 x ok, ok)

/-! ## Scalar layer (residues modulo the group order r, and the raw-integer
scalar algorithms) -/

/-- The constant `R0` of the source for jq255e (the limbs
0x8B27BADB, 0xE0AD3751, 0xABF873AC, 0x62F36CF0 as one integer):
r = 2^254 - R0. -/
def R0v : Nat := 0x62F36CF0ABF873ACE0AD37518B27BADB

/-- The group order r (constant `R` of the source, for jq255e). -/
def rv : Nat := 2 ^ 254 - R0v

/-- The constant `HR` of the source: (r-1)/2. -/
def HRv : Nat := (rv - 1) / 2

instance : NeZero rv := ⟨by decide⟩

/-- A scalar: the residue modulo r held by a (fully reduced) C `scalar`. -/
abbrev scalar := ZMod rv

/-- Embeds `scalar_is_zero` (`true` is the all-ones mask). -/
def scalar_is_zero (a : scalar) : Bool := a = 0

/-- Embeds `scalar_encode`: 32 little-endian bytes of the canonical (fully
reduced) representative. -/
def scalar_encode (a : scalar) : List Nat := leBytes 32 a.val

/-- Embeds `scalar_decode` (exactly 32 bytes; fails, returning zero and the
zero mask, unless the value is below r). -/
def scalar_decode (src : List Nat) : scalar × Bool :=
  if leVal src < rv then ((leVal src : scalar), true) else (0, false)

/-- Embeds `scalar_decode_reduce`: the little-endian value of the bytes,
reduced modulo r (the source reduces with `modr_reduce384_partial` folds
and a final conditional subtraction; the result is the residue of the
value). -/
def scalar_decode_reduce (src : List Nat) : scalar := (leVal src : scalar)

/-- Embeds `scalar_select` (`true` is the all-ones mask picking `a1`). -/
def scalar_select (a0 a1 : scalar) (ctl : Bool) : scalar := if ctl then a1 else a0

/-- Embeds `scalar_add` (add then `modr_inner_reduce`). -/
def scalar_add (a b : scalar) : scalar := a + b

/-- Embeds `scalar_mul` (512-bit product then reduction modulo r). -/
def scalar_mul (a b : scalar) : scalar := a * b

/-- Embeds `uint_recode` at the level of the integer value `s` of the limb
array: signed digits in -15..+16, five bits per digit, with the carry rule
of the source (a raw chunk of value v plus incoming carry becomes v-32 with
an outgoing carry when v+carry exceeds 16). -/
def uint_recode (sdLen : Nat) (s : Nat) : List Int :=
  go sdLen s 0
where
  /-- The recoding loop: `cc` is the pending carry (0 or 1). -/
  go : Nat → Nat → Nat → List Int
  | 0, _, _ => []
  | n + 1, s, cc =>
    let v := s % 32 + cc
    let c : Nat := if 16 < v then 1 else 0
    ((v : Int) - 32 * c) :: go n (s / 32) c

/-- Embeds `scalar_recode`: 51 signed 5-bit digits of the canonical
representative. -/
def scalar_recode (s : scalar) : List Int := uint_recode 51 s.val

/-- One digit step of `uint_recode_wNAF` on the running buffer `x`: an even
buffer yields a zero digit; an odd buffer yields its low five bits as an
odd digit in -15..+15 (chunks of 16 or more are taken negative), which is
subtracted from the buffer; the buffer is then shifted right one bit. -/
def wnafStep (x : Nat) : Int × Nat :=
  if x % 2 = 1 then
    if x % 32 < 16 then ((x % 32 : Int), (x - x % 32) / 2)
    else ((x % 32 : Int) - 32, (x + 32 - x % 32) / 2)
  else (0, x / 2)

/-- The refill of the 32-bit buffer of `uint_recode_wNAF`: at digit indices
j = 12 mod 16 (the source alternates j = 12 mod 32 reading the high half of
the current limb and j = 28 mod 32 reading the low half of the next limb),
while j < 32*uLen - 4, the next 16-bit half-word of `u` - the bits
16t..16t+15 for t = (j+4)/16 - enters the buffer four bits above its low
end. -/
def wnafRefill (u uLen x j : Nat) : Nat :=
  if j % 16 = 12 ∧ j < 32 * uLen - 4 then
    x + u / 2 ^ (16 * ((j + 4) / 16)) % 2 ^ 16 * 16
  else x

/-- The digit loop of `uint_recode_wNAF`: at index `j`, refill the buffer
if scheduled, then emit one digit. -/
def wnafLoop (u uLen : Nat) : Nat → Nat → Nat → List Int
  | _, _, 0 => []
  | x, j, n + 1 =>
    let x1 := wnafRefill u uLen x j
    let s := wnafStep x1
    s.1 :: wnafLoop u uLen s.2 (j + 1) n

/-- Embeds `uint_recode_wNAF` at the level of the integer value `u` of the
`uLen`-limb array: `sdLen` digits, each zero or odd in -15..+15, produced
from a 32-bit buffer initialized with the low 16 bits of `u` and refilled
half-word by half-word. -/
def uint_recode_wNAF (sdLen u uLen : Nat) : List Int :=
  wnafLoop u uLen (u % 2 ^ 16) 0 sdLen

/-- Embeds `scalar_recode_wNAF`: 256 wNAF digits of the canonical
representative (8 limbs). -/
def scalar_recode_wNAF (s : scalar) : List Int := uint_recode_wNAF 256 s.val 8

/-- The lattice constant `eU` of `scalar_split` (jq255e). -/
def eUv : Nat := 0x1A509F7A53C2C6E62ACCF9DEC93F6111

/-- The lattice constant `eV` of `scalar_split` (jq255e). -/
def eVv : Nat := 0x7D440C6AFFBB3A930B7A31305466F77E

/-- Embeds `mul_divr_rounded` at the level of limb-array values, keeping
the wrap-arounds of the C code explicit: from k (8 limbs) and e (4 limbs),
compute z = k*e + (r-1)/2 (12 limbs, exact since z < 2^384), the candidate
y = floor(z / 2^254) + 1 (4 limbs, wrapping), t = y*R0 (8 limbs, exact),
the top limb `hi` of (z mod 2^254) + t (the sum is taken modulo 2^256 as
the C carry chain keeps 8 limbs), and return y minus the adjustment
1 - (hi >> 30) (computed in 32-bit arithmetic), over 4 limbs (wrapping).
For k < r and e < 2^127 - 2 this is round(k*e / r), rounding half down. -/
def mul_divr_rounded (k e : Nat) : Nat :=
  let z := k * e + HRv
  let y := (z / 2 ^ 254 % 2 ^ 128 + 1) % 2 ^ 128
  let t := y * R0v
  let s := (z % 2 ^ 254 + t) % 2 ^ 256
  let hi := s / 2 ^ 224 % 2 ^ 32
  let adj := (1 + 2 ^ 32 - hi / 2 ^ 30) % 2 ^ 32
  (y + 2 ^ 128 - adj % 2 ^ 128) % 2 ^ 128

/-- Embeds `abs128`: two's-complement absolute value of a 4-limb value,
returning (|d|, sign) with sign 1 for negative. -/
def abs128 (d : Nat) : Nat × Nat :=
  let s := d / 2 ^ 127
  (if s = 1 then (2 ^ 128 - d) % 2 ^ 128 else d, s)

/-- Embeds `scalar_split` (jq255e) at the level of limb-array values:
c = round(k*eV/r) and d = round(k*eU/r) via `mul_divr_rounded`, then
k0 = k - d*eU - c*eV and k1 = d*eV - c*eU in 128-bit two's complement
(`mul128x128trunc` and `sub128` wrap modulo 2^128), each returned as
absolute value and sign; the two signs are packed into bits 0 and 1 of the
third component, as in the C return value. -/
def scalar_split (k : Nat) : Nat × Nat × Nat :=
  let c := mul_divr_rounded k eVv
  let d := mul_divr_rounded k eUv
  let k0 := (k % 2 ^ 128 + 2 ^ 128 - d * eUv % 2 ^ 128) % 2 ^ 128
  let k0 := (k0 + 2 ^ 128 - c * eVv % 2 ^ 128) % 2 ^ 128
  let a0 := abs128 k0
  let k1 := (d * eVv % 2 ^ 128 + 2 ^ 128 - c * eUv % 2 ^ 128) % 2 ^ 128
  let a1 := abs128 k1
  (a0.1, a1.1, a0.2 + 2 * a1.2)

/-! ## Curve layer (points in extended (E:Z:U:T) coordinates, jq255e:
a = 0, b = -2, hence the curve constants a' = -2a = 0 and
b' = a^2 - 4b = 8) -/

/-- A point in extended (E:Z:U:T) coordinates (C struct `point`). -/
structure point where
  E : gf
  Z : gf
  U : gf
  T : gf
deriving DecidableEq

/-- A point in extended affine coordinates, Z = 1 (C struct `point_affine`). -/
structure point_affine where
  E : gf
  U : gf
  T : gf
deriving DecidableEq

/-- The neutral element (1:1:0:0) (C constant `point_neutral`). -/
def point_neutral : point := ⟨1, 1, 0, 0⟩

/-- The affine neutral element (C constant `point_affine_neutral`). -/
def point_affine_neutral : point_affine := ⟨1, 0, 0⟩

/-- Embeds `point_decode`: decode the 32 bytes as the field element u,
compute ee = (a^2-4b)*u^4 - 2a*u^2 + 1 (for jq255e: 8*u^4 + 1, the
`gf_lsh` by 3 of the source), extract its non-negative square root e, and
produce (e:1:u:u^2); on any failure produce (-1:1:0:0) - the neutral as a
group element - with the zero mask. -/
def point_decode (src : List Nat) : point × Bool :=
  let d := gf_decode src
  let u := d.1
  let uu := gf_square u
  let ee := gf_add (gf_lsh (gf_square uu) 3) 1
  let s := gf_sqrt ee
  let ok := d.2 && s.2
  (⟨gf_select (-1) s.1 ok, 1, gf_select 0 u ok, gf_select 0 uu ok⟩, ok)

/-- Embeds `point_encode`: pass to affine coordinates (e, u) = (E/Z, U/Z),
replace (e, u) by (-e, -u) when e is negative - i.e. encode the canonical
representative - and encode u over 32 bytes. -/
def point_encode (p : point) : List Nat :=
  let iZ := gf_inv p.Z
  let e := gf_mul p.E iZ
  let u := gf_mul p.U iZ
  gf_encode (gf_condneg u (gf_is_negative e))

/-- Embeds `point_add` (jq255e branch: a' = 0, b' = 8). -/
def point_add (p1 p2 : point) : point :=
  let e1e2 := gf_mul p1.E p2.E
  let u1u2 := gf_mul p1.U p2.U
  let z1z2 := gf_mul p1.Z p2.Z
  let t1t2 := gf_mul p1.T p2.T
  let eu := gf_sub (gf_mul (gf_add p1.E p1.U) (gf_add p2.E p2.U)) (gf_add e1e2 u1u2)
  let zt := gf_sub (gf_mul (gf_add p1.Z p1.T) (gf_add p2.Z p2.T)) (gf_add z1z2 t1t2)
  let g1 := gf_lsh t1t2 3
  let hd := gf_sub z1z2 g1
  let e3 := gf_add (gf_mul (gf_add z1z2 g1) e1e2) (gf_mul (gf_lsh u1u2 4) zt)
  let z3 := gf_square hd
  let t3 := gf_square eu
  let u3 := gf_half (gf_sub (gf_square (gf_add hd eu)) (gf_add z3 t3))
  ⟨e3, z3, u3, t3⟩

/-- Embeds `point_add_affine` (jq255e branch; Z2 = 1, so z1z2 = Z1 and
zt = Z1*T2 + T1). -/
def point_add_affine (p1 : point) (p2 : point_affine) : point :=
  let e1e2 := gf_mul p1.E p2.E
  let u1u2 := gf_mul p1.U p2.U
  let t1t2 := gf_mul p1.T p2.T
  let eu := gf_sub (gf_mul (gf_add p1.E p1.U) (gf_add p2.E p2.U)) (gf_add e1e2 u1u2)
  let zt := gf_add (gf_mul p1.Z p2.T) p1.T
  let g1 := gf_lsh t1t2 3
  let hd := gf_sub p1.Z g1
  let e3 := gf_add (gf_mul (gf_add p1.Z g1) e1e2) (gf_mul (gf_lsh u1u2 4) zt)
  let z3 := gf_square hd
  let t3 := gf_square eu
  let u3 := gf_half (gf_sub (gf_square (gf_add hd eu)) (gf_add z3 t3))
  ⟨e3, z3, u3, t3⟩

/-- Embeds `point_neg`: negate the U coordinate. -/
def point_neg (p : point) : point := ⟨p.E, p.Z, gf_neg p.U, p.T⟩

/-- Embeds `point_sub`. -/
def point_sub (p1 p2 : point) : point := point_add p1 (point_neg p2)

/-- Embeds `point_sub_affine`. -/
def point_sub_affine (p1 : point) (p2 : point_affine) : point :=
  point_add_affine p1 ⟨p2.E, gf_neg p2.U, p2.T⟩

/-- The inner doubling step of `point_xdouble` (jq255e branch), in
(X:W:J) coordinates. -/
def xdouble_inner (s : gf × gf × gf) : gf × gf × gf :=
  let X := s.1
  let W := s.2.1
  let J := s.2.2
  let ww := gf_square W
  let t1 := gf_sub ww (gf_mul2 X)
  let t2 := gf_square t1
  let J1 := gf_mul J (gf_mul2 (gf_mul t1 W))
  let W1 := gf_sub t2 (gf_mul2 (gf_square ww))
  let X1 := gf_square t2
  (X1, W1, J1)

/-- Iterates `xdouble_inner`. -/
def xdouble_iter : Nat → (gf × gf × gf) → gf × gf × gf
  | 0, s => s
  | n + 1, s => xdouble_iter n (xdouble_inner s)

/-- Embeds `point_xdouble` (jq255e branch): for n > 0, one coordinate
conversion ezut -> xwj fused with the first doubling (ee = E^2, X = ee^2,
W = 2*Z^2 - ee, J = 2*E*U), n-1 doublings in (X:W:J), and the conversion
back (Z = W^2, T = J^2, U = W*J, E = 2*X - Z). -/
def point_xdouble (p : point) (n : Nat) : point :=
  match n with
  | 0 => p
  | m + 1 =>
    let g1 := gf_square p.E
    let J := gf_mul2 (gf_mul p.E p.U)
    let X := gf_square g1
    let W := gf_sub (gf_mul2 (gf_square p.Z)) g1
    let s := xdouble_iter m (X, W, J)
    let Z2 := gf_square s.2.1
    let T2 := gf_square s.2.2
    let U2 := gf_mul s.2.1 s.2.2
    let E2 := gf_sub (gf_mul2 s.1) Z2
    ⟨E2, Z2, U2, T2⟩

/-- Embeds `point_double`. -/
def point_double (p : point) : point := point_xdouble p 1

/-- Embeds `point_is_neutral`: U = 0 (`true` is the all-ones mask). -/
def point_is_neutral (p : point) : Bool := gf_is_zero p.U

/-- Embeds `point_select` (`true` is the all-ones mask picking `p1`). -/
def point_select (p0 p1 : point) (ctl : Bool) : point := if ctl then p1 else p0

/-- Embeds `point_lookup`: from a window win with win[i] = (i+1)*P and a
signed digit k with -16 <= k <= 16, produce |k|*P (the neutral for k = 0;
the source touches every entry and keeps the neutral exactly when no index
matches |k|-1) and negate the U coordinate when k < 0. -/
def point_lookup (win : List point) (k : Int) : point :=
  let m := k.natAbs
  let p := if m = 0 then point_neutral else win.getD (m - 1) point_neutral
  ⟨p.E, p.Z, gf_condneg p.U (decide (k < 0)), p.T⟩

/-- Embeds `point_affine_lookup` (same rule as `point_lookup`, affine
window). -/
def point_affine_lookup (win : List point_affine) (k : Int) : point_affine :=
  let m := k.natAbs
  let p := if m = 0 then point_affine_neutral else win.getD (m - 1) point_affine_neutral
  ⟨p.E, gf_condneg p.U (decide (k < 0)), p.T⟩
/-- Precomputed affine window `point_win_base` from the source (jq255e instantiation):
entry i holds the extended affine coordinates (E, U, T) of the point
(i+1)*G. Each `LGF` group of eight 32-bit limbs is written as its integer value. -/
def point_win_base : List point_affine := [
  ⟨3, 1,
   1⟩,
  ⟨11815519309930224022813365817213051821762243333228628983618120817133992816593, 24812590550853470447908068216147408825700710999780120865598053715981384914851,
   29538798274825560057033414543032629554405608333071572459045302042834982041489⟩,
  ⟨49944599965494238946200905597662027515079670912484939283348610052116799200815, 8236257393449269130546890147061482985379036566175270245484430661650724699769,
   51803484540880155705421062689676642306512744141917064022484525118996866773959⟩,
  ⟨6819045917322463265573900778574247904012351418816502512671484636178002021398, 55308999070240590144897625637073155935185003972021484429792373031519193511085,
   16039272486587971638636019259367350870595391094530030069643896702576890087565⟩,
  ⟨26343816167048610466256264981051304803910234664007849111583131714650644007018, 10997220692106258991477996496957121916622247727985777121380445386313689678830,
   28137708321724792442175982344929307732154707999484112158660078207727236943953⟩,
  ⟨8282384609112778390204944961723131723670808979214004407921019854168277046770, 36027507353273345100613830966729575509334797587866707485530584155355663395608,
   23950206803388532076979709631620173029444117556150910429983409872300818897613⟩,
  ⟨34538765640539941284516267663865252075032241361200929238986334733906758216187, 49685161068196029289889762395681818684157511302308982281743398721999071016170,
   39135878515960754543935599290634647278013417425378003911316999063864626074948⟩,
  ⟨20160022989265839725538614404828148452169201732305654352979807551834308508456, 32294771315292604973166341610064050973942071145018146321056309958412845791883,
   37610160774171892230241146770900799167570838295805103585277340923213823254426⟩,
  ⟨15622376660563863023753492393337597893228200585528545310630898494370835578052, 47648317828082911796259582571004459675611372886089030132548564117745064513121,
   30357315088559584491796473780654220272472630557630029896697518809651724889855⟩,
  ⟨21783547005923453630635332684059292256455069458333005830659666368288650184894, 55731775926905423486601082932735901765952749226451722968241177110286692880446,
   16816474112137801726906027021041538904050428948399896052054237122602901841982⟩,
  ⟨31881904917094487602389888690675170361792142638995695808732075567419835890235, 9733788441043277415987143895509443812259497566283456220679802520834656862082,
   42195896214740844530431438517117542770538177983254379554368168356004408514181⟩,
  ⟨46587372315063809164627882132433981054625599495281954315646522648844195298195, 46995239872491013898976995223307275306293419709687592980566591214070407774378,
   15413337787064564391144954842118093950425263149982818122947668683282462214580⟩,
  ⟨49952678048672588709920010723975745100403383652312332506827677558475026614051, 10843895913269133371486326771596233526970698298863173701898371092984019425637,
   6394912483754512874572122280949354748724430544219625770715787698477777673363⟩,
  ⟨52813541129498775033135473825566445856331693407830368611197583125938226668016, 30206039992472337628881537476576168997041137136008997241258391720702409195890,
   5559843630230622312192318764587058240804409469180510119729763081389967602908⟩,
  ⟨7719086723118627898427435345305128516376401882035308892160859052101213496487, 21394107253995462966185934246523527305913169204364276294705534251982658864935,
   5794374518986081932965111689143986542379792639870178343096814487074402357854⟩,
  ⟨46772229397753838387734310320678968045952952198035070467207100433495640709934, 16781687288744405162327699288902933936185267239981186180960817096048389550153,
   20151544840782159482721805220045981059274101858175416933727661174829720402202⟩
]

/-- Precomputed affine window `point_win_base65` from the source (jq255e instantiation):
entry i holds the extended affine coordinates (E, U, T) of the point
(i+1)*2^65*G. Each `LGF` group of eight 32-bit limbs is written as its integer value. -/
def point_win_base65 : List point_affine := [
  ⟨49246827735614523992556777910111552813909955601641195842691918847967574368543, 12299444898047930556156768426098059915202343262850264654745172788127999654513,
   49967051245937083757438532653258871103424547504644898549134490954067294913323⟩,
  ⟨52979247842288429881700327344155822153333876392111900571580850378080108585481, 5380816851139684946537304244903345059377317564190952335541408061134338932531,
   29095189551871765292960570144924308643549098541378001565210461471833468306043⟩,
  ⟨25798180383518696668473987061944430009238443309528740264951137945885394360846, 4320346363423847430991252477732580910224015117442006313863525771547666140031,
   29692862724219572232156361510936208825580197035109954464328906438390382352070⟩,
  ⟨7615146840152355778623276948756820437503067116845974841127888680395395785043, 24087282463396176206314465874529908598457266505732069905387826420257255643295,
   45430614627740836404947065481172396941386082648498758740336575144715933136609⟩,
  ⟨52528740317220886818988200528072660813452406272199592099466009958259929236085, 34020113926053405214909396579179623355130250891591963946541463897508317935531,
   53096700059194317613761618933794356799688524373154737635099201661102648826395⟩,
  ⟨44997435851644064054716468215367161733784875897478937658419255517466273832067, 9153983757473511983645453207912843694382208511428269602818793243097203851265,
   19986763250135216102641985662019661652859338035189865045552781383249478261816⟩,
  ⟨41824904940937079050113948186611414098862908513606337525522829491145703496534, 57400835740601448788657857753022120053194171684829846280864339005867704869385,
   51866797501464634856553150949658942553369661646419960606274838754327751099049⟩,
  ⟨48497120440307866033382309653293599402564862639171742006294149694720025871341, 15987220162917041757627146441683753500398204100515936867160317796265485421752,
   18717613518440131357710132580214475653024391338772607100804147020979417157883⟩,
  ⟨22650180724313153974489237927697109418743867089180672386783200095869012473161, 3560284990319302351256821674495397767715199864838873339123771550251526578066,
   51216425672763643333116782758496663281701370686217150154551438144070823267739⟩,
  ⟨41872794806199375164298350722887176269880266153714093940581056755070295188944, 55140082458565775214257793957576798369345208728934262395836471219364634615560,
   10890451407398266021805442832636252067177781576078079709881092938801234657556⟩,
  ⟨31247985326120668744328419876680919573000423471314928848687751783741586151037, 27493439188329443575584401643863453467270199497504934771598490542857187769944,
   2511835337390593066232535006522643840099855022651900642997000639719350835386⟩,
  ⟨28222745927859880553949724768858974536197762972746401834698039794270327399725, 36997244116586208530652972617602435114666738930387282660011985235036414202500,
   43575854519440454146074121220498380807826755701004066685570954913222099725335⟩,
  ⟨29014042908431374059832002644188674790309786472477708672881846919216384008126, 2318668798462798556395889252049261926506219684297300402183097429440755378792,
   36535308099353075806868232373739793762382013035059502907441178331240402169932⟩,
  ⟨44833734319685754331355526133242572133451956730108716734968603802412577250864, 51342651400179795944394424095342979428820954227974550978061703965357581752029,
   8781611749817428223454908960169518128681654174036599502943072861418486569834⟩,
  ⟨4410613134021959511894879062625211211081980089576421627647859387809589156060, 29143316481481583607858659106286203349712170461392198832156592938455942830077,
   55277319155856496464181248758984719529210530049690590933812769337906561424830⟩,
  ⟨6177502761349664965753419167692804716968940086242680114964762224810792398230, 55891408296362919137967339171517472518758571807619206141689569077099679456371,
   54613961871957114437414585128062843375963897582363154157000438397603690177660⟩
]

/-- Precomputed affine window `point_win_base130` from the source (jq255e instantiation):
entry i holds the extended affine coordinates (E, U, T) of the point
(i+1)*2^130*G. Each `LGF` group of eight 32-bit limbs is written as its integer value. -/
def point_win_base130 : List point_affine := [
  ⟨3073636849077581749656725751679337943638732231298870903894608570245951217774, 13672680955159376367019197917443977545239757575507012131153215211658901031883,
   45011213166673062283918142713782697102321808801117396201019365967567178684754⟩,
  ⟨47889446574729220964778087192803928395523693128862398648621366393035023512182, 13513216445063314101907115897473833266570287377451234554932804685377774442984,
   26277925732167181765870767399472663892507031066461375556281621347235282938457⟩,
  ⟨57722200186813256058846722215036736511630040953529748114138861770791639172248, 44656976289371499732860389571970046568449259252567760998070726817548439544770,
   38339338112048226271492998399553467815473925200296330670597096007713288151228⟩,
  ⟨10875319245834038420893384119531169284737969545814983075233054655229212162307, 25297297877001586634845628887258168697299678888137693417429612834877000078231,
   36793827571766475557335190227793782798850659787305471720718759180625331703728⟩,
  ⟨38503372563663916015622273862542414366461269041881583474807875721852681960924, 18174013755284988751442793305674120233621914714581200824103792955030665729503,
   53993696463271137004423085065282110273035359975170887908162667394019864277908⟩,
  ⟨42947060502806795017821591479642578689629756215366319426140277582833360483685, 57131488706335288322437785157502131839441022979685755993119791107335632287016,
   23079724367197516754494006999155189152026194424281845815272785546044812919890⟩,
  ⟨32652225783453177353176111980281904460580409849843383744159960861233839331602, 24937674817460281788465646008631121665612195207025908437531004626148942353427,
   24040470725595475415644731902489323319414915095914349268522177978674014903606⟩,
  ⟨21815321511637285035037708030642197666573379193315471991030831314029076015566, 35331577257433913382085243895137070134538838965522210012052126369994231800985,
   13564096096805333808481630688724511099434307978252939225392834218114799803020⟩,
  ⟨30026387742092893957439540235625871454187739753450681517153093481991636686729, 50388897846173933133923004535134681134519574968088579049151968178650647361856,
   1688883379958887459119019663386720556799473868253444014617531768436909160079⟩,
  ⟨54022095151704809214177628626713507331701786725720063589880629232680132321624, 45649439263617937380317786055810446380137559606017593182022628612224011673143,
   34271615111059868589436512595004473735923139397185236031967159383592820655380⟩,
  ⟨24486566080901172718146553970522331074665354309683669653861607345567659462077, 1181466102710495071233973200407050585714386017757856341349542409493354868897,
   22136510847299607878708274696833401771945023871536534075993805399536768167411⟩,
  ⟨51096579443818883753497718042127520331471907697222419519066440531243910502902, 49984061903654088541966625555349948037759014857554685269472724187711724142629,
   54929962668994251431132320580286405022938342262849769201953753569597186113417⟩,
  ⟨31000521580775157481062486502961016822651155314586120008972379390856518760258, 45794711989989146172092976665638149791129901881367548779117421451974382575032,
   50005093159796082895462682055549241483882327892714548702988125811819264619174⟩,
  ⟨2983644163914736747089723930592962770641455978046181957029346964375685724502, 36583886107850015305083858734868642826804459077629909803476518148748088000336,
   37422782362769105484341783801008276678529893045460599235961397564316923821244⟩,
  ⟨46943232306338777020955140766283115126517756568729301954470471879811758497943, 42024950983729557874549129990682954942035640754135521448042632903845992656481,
   55053761959393184359985069845418332966177328173178886202575294211031540165125⟩,
  ⟨42971036878961454827174103629454820303280315821393491238530251467335363005264, 6867460237984277832538700654443411446238185796957370460652865166272128340067,
   21226122054794390333625292747967233226653146138983270093325176878585858817872⟩
]

/-- Precomputed affine window `point_win_base195` from the source (jq255e instantiation):
entry i holds the extended affine coordinates (E, U, T) of the point
(i+1)*2^195*G. Each `LGF` group of eight 32-bit limbs is written as its integer value. -/
def point_win_base195 : List point_affine := [
  ⟨17636965393959948709324845738295703882789483713233149152299947110710696465547, 55239316794229408357480967033991804993031831079725940077182755182921141420066,
   49281979943229506100117402716685374609867910976455495279261827336466577592669⟩,
  ⟨17585647191044691084668911505969288060275428477305223124929345331767849676038, 40481833775327832410362706138231747863716927582782124594713955613799623747231,
   42295912667914818004540180079253522983108634363113042606360746453037594925619⟩,
  ⟨55450115699325793386547820877647188416184974197156853449414217687455239427409, 42211054214128398032179561478165488796604820370047495209813681001749728122855,
   17165960762824538961942228104754539759863821878074489136581313281976757313730⟩,
  ⟨47377497987243772630674599224909949587313703334458573366041713327791491085568, 52429158328806071517336794959530270373791096872611869381284140271796879157199,
   21333025455984342585611806207543016561306659723975809087877555348741157474362⟩,
  ⟨12028801745806010025930339121465272522480271453472162869184805270787316937912, 28807312400207511310091421159481468619484268921764076786572954024905649688544,
   14320088605202577478304643000668496647269873805844462779960127982345872470879⟩,
  ⟨37683961474032345578501644535609220807350125485322065524485843867620704495711, 13990773400498357595065453531522086181671865864440003334878510391392688009203,
   24323375126232976110535595899176074512350129985296207385290912775377627514210⟩,
  ⟨14584011139662517616161866994299020539540979451701367659232923458976312844618, 12814639587150287530463917963699176105891444377644317248534408548751318346962,
   54784263692696843381168773789354165416025834626600908794315899893173887683414⟩,
  ⟨40849837031513537152886170777659284993714921726469983488037745549260022639797, 32532135100863344080246484214214154549059729218988600038254461071384807552664,
   368502508177140218062451922935422486197207242123860954611179131250915952919⟩,
  ⟨35335142773827311036271521601157688306648413222651091078483232012346120224388, 5566088686490479748734192757289918057692375293547988765847222389725445381819,
   41735258619958970762712832584013746591061629677912454966172908363800995723327⟩,
  ⟨5305627073587060605986264319510155730477834116853071202361450937485810423786, 31083396218171282578294179685200932066117722333136697955401468664097480505017,
   26695593149918923029025518624161900702441818718077722144061048984445446610194⟩,
  ⟨20260745651775939719992894784877463455032947752590710068608610062169534227987, 56920959285011284720046883521001962800991810770141705239474680878030091319190,
   47644986116299421273335794761274618192505732295774230939820107900302078850016⟩,
  ⟨20795870216397264698721229263457186194601945920128512465262766932441533356305, 43535802521472220690583897996780120677598149760735343742089664444235519186323,
   27142119910355293052651117469976897343666558383205615726009624506752992561496⟩,
  ⟨4976002672110888928141403804220814440003440397428130182317513926225413911613, 1711525282690342684442583998341411219153280746818619374533186936347131174720,
   41697363723403418655649769472509683899654438804952992951015722728881846361948⟩,
  ⟨43480702152805735814340604683616670116160560609319483122535126134561966429329, 45216191663941003571807374047477809191661861727100084867307115148971655227213,
   37674450676133482643778552535479790555130931629027736509094165916930228629575⟩,
  ⟨48968810261972185160171213112652335072312668277111128158482370643867293187438, 41800045523647146764733450959097816973108412099790463355411085452349327525235,
   5251133895017785098878122476302610664128339219524772791826673298874281248261⟩,
  ⟨35127314154087893023150207242633211161250361268693160961109031661641842481545, 10017152205031056566346197257461338366769868117115561906415654740349420818701,
   1347424911399170604214184102139503831199328111123626071865221011693087687374⟩
]

/-! ## Multiplier layer -/

/-- The field constant `ETA` of `point_mul` (jq255e): a square root of -1
modulo q, used to apply the curve endomorphism zeta(e, u) = (e, eta*u). -/
def ETA : gf :=
  (0x10ED2DB33C69B85FE414983FE53688E3A60D864FB30E6336D99E0F1BAA938AEE : Nat)

/-- The 16-entry window of `point_mul`: win[i] = (i+1)*P, built by the
doubling/addition schedule of the source (win[2i+1] = 2*win[i],
win[2i+2] = win[2i+1] + win[0], win[15] = 2*win[7]). -/
def point_mul_win (p : point) : List point :=
  let v1 := p
  let v2 := point_double v1
  let v3 := point_add v2 v1
  let v4 := point_double v2
  let v5 := point_add v4 v1
  let v6 := point_double v3
  let v7 := point_add v6 v1
  let v8 := point_double v4
  let v9 := point_add v8 v1
  let v10 := point_double v5
  let v11 := point_add v10 v1
  let v12 := point_double v6
  let v13 := point_add v12 v1
  let v14 := point_double v7
  let v15 := point_add v14 v1
  let v16 := point_double v8
  [v1, v2, v3, v4, v5, v6, v7, v8, v9, v10, v11, v12, v13, v14, v15, v16]

/-- The endomorphism application of `point_mul`: multiply U by eta and
negate T. -/
def point_endo (eta : gf) (p : point) : point :=
  ⟨p.E, p.Z, gf_mul p.U eta, gf_neg p.T⟩

/-- The inner loop of `point_mul` (jq255e): one 5-fold doubling, then the
window contributions of the digits sd0[i] and sd1[i] (the latter through
the endomorphism). -/
def point_mul_loop (win : List point) (eta : gf) (sd0 sd1 : List Int) :
    Nat → point → point
  | 0, p2 => p2
  | i + 1, p2 =>
    let p2 := point_xdouble p2 5
    let p2 := point_add p2 (point_lookup win (sd0.getD i 0))
    let p2 := point_add p2 (point_endo eta (point_lookup win (sd1.getD i 0)))
    point_mul_loop win eta sd0 sd1 i p2

/-- Embeds `point_mul` (jq255e branch): split the scalar into half-width
signed scalars k0, k1 with k = k0 + k1*mu mod r; build the window over
(-1)^sign(k0) * P1; pick eta or -eta according to sign(k0) xor sign(k1);
recode |k0| and |k1| into 26 digits each and run the double-and-add loop,
applying the endomorphism to the k1 contributions. -/
def point_mul (p1 : point) (s : scalar) : point :=
  let sp := scalar_split s.val
  let sk := sp.2.2
  let w0 : point := ⟨p1.E, p1.Z, gf_condneg p1.U (sk % 2 = 1), p1.T⟩
  let win := point_mul_win w0
  let eta := gf_condneg ETA ((sk ^^^ sk / 2) % 2 = 1)
  let sd0 := uint_recode 26 sp.1
  let sd1 := uint_recode 26 sp.2.1
  let p2 := point_lookup win (sd0.getD 25 0)
  let p2 := point_add p2 (point_endo eta (point_lookup win (sd1.getD 25 0)))
  point_mul_loop win eta sd0 sd1 25 p2

/-- The initialization of `point_mulgen`: the top digits of the first three
windows (the fourth window's top digit is consumed by the first loop
iteration). -/
def point_mulgen_init (sd : List Int) : point :=
  let qa := point_affine_lookup point_win_base (sd.getD 12 0)
  let p : point := ⟨qa.E, 1, qa.U, qa.T⟩
  let p := point_add_affine p (point_affine_lookup point_win_base65 (sd.getD 25 0))
  point_add_affine p (point_affine_lookup point_win_base130 (sd.getD 38 0))

/-- One iteration of the `point_mulgen` loop at index `i`: a 5-fold
doubling, then one affine addition from each of the four precomputed
windows (digits i, i+13, i+26, i+39). -/
def point_mulgen_step (sd : List Int) (p : point) (i : Nat) : point :=
  let p := point_xdouble p 5
  let p := point_add_affine p (point_affine_lookup point_win_base (sd.getD i 0))
  let p := point_add_affine p (point_affine_lookup point_win_base65 (sd.getD (i + 13) 0))
  let p := point_add_affine p (point_affine_lookup point_win_base130 (sd.getD (i + 26) 0))
  point_add_affine p (point_affine_lookup point_win_base195 (sd.getD (i + 39) 0))

/-- The loop of `point_mulgen`, from index i-1 down to 0. -/
def point_mulgen_loop (sd : List Int) : Nat → point → point
  | 0, p => p
  | i + 1, p => point_mulgen_loop sd i (point_mulgen_step sd p i)

/-- Embeds `point_mulgen`: recode the scalar into 51 signed 5-bit digits
and run the four-window double-and-add algorithm over the precomputed
affine windows for G, 2^65*G, 2^130*G and 2^195*G. -/
def point_mulgen (s : scalar) : point :=
  let sd := scalar_recode s
  point_mulgen_loop sd 12 (point_mulgen_init sd)

/-- The 8-entry wNAF window of the variable-time combined multiplication:
win[i] = (2i+1)*P1. -/
def vartime_win (p1 : point) : List point :=
  let d := point_double p1
  let w1 := point_add d p1
  let w2 := point_add w1 d
  let w3 := point_add w2 d
  let w4 := point_add w3 d
  let w5 := point_add w4 d
  let w6 := point_add w5 d
  let w7 := point_add w6 d
  [p1, w1, w2, w3, w4, w5, w6, w7]

/-- The main loop of `point_mul128_add_mulgen_vartime`: sweep the digit
index from 129 down to 0 (the fuel argument is i+1), maintaining the
pending-doubling counter `ndbl` and the neutral-so-far flag `zz`; when at
least one of the three digits at the index is non-zero, flush the pending
doublings and add or subtract the matching window entries (the wNAF window
over P1, and the precomputed affine windows for G and 2^130*G); after the
loop, flush the remaining doublings. -/
def vartime_loop (win : List point) (sdu sdv : List Int) :
    Nat → Bool → Nat → point → point
  | 0, zz, ndbl, p2 => if zz then point_neutral else point_xdouble p2 ndbl
  | n + 1, zz, ndbl, p2 =>
    let ndbl := ndbl + 1
    let eu := sdu.getD n 0
    let ev0 := sdv.getD n 0
    let ev1 := if n < 126 then sdv.getD (n + 130) 0 else 0
    if eu = 0 ∧ ev0 = 0 ∧ ev1 = 0 then vartime_loop win sdu sdv n zz ndbl p2
    else
      let p2 := if zz then point_neutral else point_xdouble p2 ndbl
      let p2 :=
        if 0 < eu then point_add p2 (win.getD (eu.toNat / 2) point_neutral)
        else if eu < 0 then point_sub p2 (win.getD ((-eu).toNat / 2) point_neutral)
        else p2
      let p2 :=
        if 0 < ev0 then
          point_add_affine p2 (point_win_base.getD (ev0.toNat - 1) point_affine_neutral)
        else if ev0 < 0 then
          point_sub_affine p2 (point_win_base.getD ((-ev0).toNat - 1) point_affine_neutral)
        else p2
      let p2 :=
        if 0 < ev1 then
          point_add_affine p2 (point_win_base130.getD (ev1.toNat - 1) point_affine_neutral)
        else if ev1 < 0 then
          point_sub_affine p2 (point_win_base130.getD ((-ev1).toNat - 1) point_affine_neutral)
        else p2
      vartime_loop win sdu sdv n false 0 p2

/-- Embeds `point_mul128_add_mulgen_vartime`: P2 = u*P1 + v*G for a
128-bit u (wNAF, 130 digits) and a scalar v (wNAF, 256 digits, the upper
half aligned with the 2^130*G window). -/
def point_mul128_add_mulgen_vartime (p1 : point) (u : Nat) (v : scalar) : point :=
  let win := vartime_win p1
  let sdu := uint_recode_wNAF 130 u 4
  let sdv := scalar_recode_wNAF v
  vartime_loop win sdu sdv 130 true 0 point_neutral

/-! ## BLAKE2s (portable reference path of `blake2s.c`: 32-bit words are
naturals below 2^32, with additions taken modulo 2^32) -/

/-- The BLAKE2s initialization vector `IV`. -/
def b2IV : List Nat :=
  [0x6A09E667, 0xBB67AE85, 0x3C6EF372, 0xA54FF53A,
   0x510E527F, 0x9B05688C, 0x1F83D9AB, 0x5BE0CD19]

/-- The message schedule: the ten `ROUND(...)` permutations of
`process_block`. -/
def b2SIGMA : List (List Nat) :=
  [[0, 1, 2, 3, 4, 5, 6, 7, 8, 9, 10, 11, 12, 13, 14, 15],
   [14, 10, 4, 8, 9, 15, 13, 6, 1, 12, 0, 2, 11, 7, 5, 3],
   [11, 8, 12, 0, 5, 2, 15, 13, 10, 14, 3, 6, 7, 1, 9, 4],
   [7, 9, 3, 1, 13, 12, 11, 14, 2, 6, 5, 10, 4, 0, 15, 8],
   [9, 0, 5, 7, 2, 4, 10, 15, 14, 1, 11, 12, 6, 8, 3, 13],
   [2, 12, 6, 10, 0, 11, 8, 3, 4, 13, 7, 5, 15, 14, 1, 9],
   [12, 5, 1, 15, 14, 13, 4, 10, 0, 7, 6, 3, 9, 2, 8, 11],
   [13, 11, 7, 14, 12, 1, 3, 9, 5, 0, 15, 4, 8, 6, 2, 10],
   [6, 15, 14, 9, 11, 3, 0, 8, 12, 2, 13, 7, 1, 4, 10, 5],
   [10, 2, 8, 4, 7, 6, 1, 5, 15, 11, 9, 14, 3, 12, 13, 0]]

/-- 32-bit rotation right (`ROR` of the source). -/
def ror32 (x n : Nat) : Nat := x % 2 ^ 32 / 2 ^ n + x % 2 ^ n * 2 ^ (32 - n)

/-- The quarter-round `G` of `process_block`, acting on the 16-word state
`v` at indices a, b, c, d with message words x and y. -/
def b2g (v : List Nat) (a b c d x y : Nat) : List Nat :=
  let va := (v.getD a 0 + v.getD b 0 + x) % 2 ^ 32
  let vd := ror32 (v.getD d 0 ^^^ va) 16
  let vc := (v.getD c 0 + vd) % 2 ^ 32
  let vb := ror32 (v.getD b 0 ^^^ vc) 12
  let va := (va + vb + y) % 2 ^ 32
  let vd := ror32 (vd ^^^ va) 8
  let vc := (vc + vd) % 2 ^ 32
  let vb := ror32 (vb ^^^ vc) 7
  (((v.set a va).set b vb).set c vc).set d vd

/-- One `ROUND` of `process_block`: eight `G` applications (four columns,
four diagonals) with the message words permuted by `s`. -/
def b2round (m : List Nat) (v : List Nat) (s : List Nat) : List Nat :=
  let mi := fun i => m.getD (s.getD i 0) 0
  let v := b2g v 0 4 8 12 (mi 0) (mi 1)
  let v := b2g v 1 5 9 13 (mi 2) (mi 3)
  let v := b2g v 2 6 10 14 (mi 4) (mi 5)
  let v := b2g v 3 7 11 15 (mi 6) (mi 7)
  let v := b2g v 0 5 10 15 (mi 8) (mi 9)
  let v := b2g v 1 6 11 12 (mi 10) (mi 11)
  let v := b2g v 2 7 8 13 (mi 12) (mi 13)
  b2g v 3 4 9 14 (mi 14) (mi 15)

/-- Splits a 64-byte block into its sixteen little-endian 32-bit words. -/
def toWords16 (b : List Nat) : List Nat :=
  (List.range 16).map fun i => leVal ((b.drop (4 * i)).take 4)

/-- Embeds `process_block` (portable path): the compression function, over
the 8-word state `h`, a 64-byte block, the byte counter `t` (a 64-bit
value) and the final-block flag `f`. -/
def process_block (h : List Nat) (data : List Nat) (t : Nat) (f : Bool) : List Nat :=
  let m := toWords16 data
  let v := h ++ b2IV
  let v := v.set 12 (v.getD 12 0 ^^^ t % 2 ^ 32)
  let v := v.set 13 (v.getD 13 0 ^^^ t / 2 ^ 32 % 2 ^ 32)
  let v := if f then v.set 14 (v.getD 14 0 ^^^ 0xFFFFFFFF) else v
  let v := b2SIGMA.foldl (b2round m) v
  (List.range 8).map fun i => h.getD i 0 ^^^ v.getD i 0 ^^^ v.getD (i + 8) 0

/-- The BLAKE2s streaming state (C struct `blake2s_context`): the buffered
bytes (between 1 and 64 of them whenever `ctr > 0` - a full block is kept
buffered until it is known not to be the last), the 8-word state, and the
count of bytes injected so far. -/
structure blake2s_context where
  h : List Nat
  buf : List Nat
  ctr : Nat
  out_len : Nat

/-- Embeds `blake2s_init` (no key): h is IV with the parameter block
(0x01010000 xor out_len) folded into h[0]. -/
def blake2s_init (out_len : Nat) : blake2s_context :=
  ⟨(b2IV.headI ^^^ (0x01010000 ^^^ out_len)) :: b2IV.tail, [], 0, out_len⟩

/-- The inner block loop of `blake2s_update`: as long as strictly more than
64 bytes remain, compress one 64-byte block (with the counter advanced past
it) and continue; return the state, counter, and remaining bytes.  The
first argument is recursion fuel; each iteration consumes 64 bytes of the
data, so any fuel of at least `data.length` realizes the `while` loop of
the source. -/
def b2loop : Nat → List Nat → Nat → List Nat → List Nat × Nat × List Nat
  | 0, h, ctr, data => (h, ctr, data)
  | fuel + 1, h, ctr, data =>
    if 64 < data.length then
      b2loop fuel (process_block h (data.take 64) (ctr + 64) false) (ctr + 64) (data.drop 64)
    else (h, ctr, data)

/-- Embeds `blake2s_update`: complete the current buffered block if
possible; once a full block is buffered and more input remains, compress
it, compress all further full blocks except the last, and buffer the rest. -/
def blake2s_update (bc : blake2s_context) (data : List Nat) : blake2s_context :=
  if data.length = 0 then bc
  else if bc.ctr = 0 ∨ bc.ctr % 64 ≠ 0 then
    let clen := 64 - bc.ctr % 64
    if data.length ≤ clen then
      { bc with buf := bc.buf ++ data, ctr := bc.ctr + data.length }
    else
      let ctr1 := bc.ctr + clen
      let h1 := process_block bc.h (bc.buf ++ data.take clen) ctr1 false
      let res := b2loop data.length h1 ctr1 (data.drop clen)
      ⟨res.1, res.2.2, res.2.1 + res.2.2.length, bc.out_len⟩
  else
    let h1 := process_block bc.h bc.buf bc.ctr false
    let res := b2loop data.length h1 bc.ctr data
    ⟨res.1, res.2.2, res.2.1 + res.2.2.length, bc.out_len⟩

/-- Bytes of a word list, 4 little-endian bytes per 32-bit word. -/
def wordsToBytes : List Nat → List Nat
  | [] => []
  | w :: t => leBytes 4 w ++ wordsToBytes t

/-- Embeds `blake2s_final`: pad the buffered block with zeros, compress it
with the final-block flag, and output the first `out_len` bytes of the
state. -/
def blake2s_final (bc : blake2s_context) : List Nat :=
  let padded := bc.buf ++ List.replicate (64 - bc.buf.length) 0
  let h := process_block bc.h padded bc.ctr true
  (wordsToBytes h).take bc.out_len

/-! ## Scheme layer (`SECTION 5` of `jq255.c`, jq255e instantiation:
`jq_` stands for `jq255e_`).

A public-key structure holds the decoded point together with the 32-byte
stored encoding kept alongside it (in the C layout, the bytes after the
`point`); a keypair holds a private scalar and such a public key.  An
invalid private key is the zero scalar; an invalid public key holds the
neutral point. -/

/-- The public-key structure: point plus stored 32-byte encoding slot. -/
structure jq_public_key where
  p : point
  enc : List Nat

/-- The keypair structure. -/
structure jq_keypair where
  private_key : scalar
  public_key : jq_public_key

/-- Embeds `jq_generate_private_key`: hash the seed, decode-reduce to a
scalar, and substitute 1 for the (very improbable) zero. -/
def jq_generate_private_key (seed : List Nat) : scalar :=
  let s := scalar_decode_reduce (blake2s_final (blake2s_update (blake2s_init 32) seed))
  scalar_select s 1 (scalar_is_zero s)

/-- Embeds `jq_make_public`: Q = sec*G, stored together with its
encoding. -/
def jq_make_public (sec : scalar) : jq_public_key :=
  let p := point_mulgen sec
  ⟨p, point_encode p⟩

/-- Embeds `jq_decode_private_key`: exactly 32 bytes, canonical, non-zero;
on failure the scalar is the zero sentinel and 0 is returned. -/
def jq_decode_private_key (src : List Nat) (len : Nat) : scalar × Nat :=
  if len ≠ 32 then (0, 0)
  else
    let d := scalar_decode src
    let r := d.2 && !scalar_is_zero d.1
    (d.1, if r then 1 else 0)

/-- Embeds `jq_decode_public_key`: exactly 32 bytes; decode the point and
reject the neutral; for a 32-byte input the source bytes are copied into
the stored-encoding slot whether or not decoding succeeded (on failure the
point itself is the neutral sentinel); for any other length the slot is
zeroed.  Returns the structure and the 0/1 status. -/
def jq_decode_public_key (src : List Nat) (len : Nat) : jq_public_key × Nat :=
  if len ≠ 32 then (⟨point_neutral, List.replicate 32 0⟩, 0)
  else
    let d := point_decode src
    let r := d.2 && !point_is_neutral d.1
    (⟨d.1, src⟩, if r then 1 else 0)

/-- Embeds `jq_encode_private_key`: 32 bytes, returned length 32. -/
def jq_encode_private_key (sk : scalar) : Nat × List Nat := (32, scalar_encode sk)

/-- Embeds `jq_encode_public_key`: when the held point is the neutral
(invalid-key sentinel), the mask `r = ~point_is_neutral(...)` is zero and
the output bytes are all forced to 0x00; otherwise the mask is all-ones and
the stored encoding bytes are written back unchanged.  Returns the C
return value 32 together with the written bytes. -/
def jq_encode_public_key (pk : jq_public_key) : Nat × List Nat :=
  let r := !point_is_neutral pk.p
  (32, pk.enc.map fun b => if r then b else 0)

/-- Embeds `make_sign_k`: the per-signature scalar, derived as the hash of
sec_enc, Q_enc, the 8-byte little-endian seed length, the seed, the domain
byte 0x52 (raw) or 0x48 followed by the NUL-terminated hash name, and the
(pre-hashed) message, decoded-and-reduced modulo r. -/
def make_sign_k (sec : scalar) (epub hname hv seed : List Nat) : scalar :=
  let bc := blake2s_init 32
  let bc := blake2s_update bc (scalar_encode sec)
  let bc := blake2s_update bc epub
  let bc := blake2s_update bc (leBytes 8 seed.length)
  let bc := blake2s_update bc seed
  let bc :=
    if hname = [] then blake2s_update bc [0x52]
    else blake2s_update (blake2s_update bc [0x48]) (hname ++ [0])
  let bc := blake2s_update bc hv
  scalar_decode_reduce (blake2s_final bc)

/-- Embeds `make_challenge`: the first 16 bytes of the hash of R_enc,
Q_enc, the domain byte (with the hash name, under the same rules as
`make_sign_k`), and the message. -/
def make_challenge (r : point) (epub hname hv : List Nat) : List Nat :=
  let bc := blake2s_init 32
  let bc := blake2s_update bc (point_encode r)
  let bc := blake2s_update bc epub
  let bc :=
    if hname = [] then blake2s_update bc [0x52]
    else blake2s_update (blake2s_update bc [0x48]) (hname ++ [0])
  let bc := blake2s_update bc hv
  (blake2s_final bc).take 16

/-- Embeds `jq_sign_seeded`: derive k, compute R = k*G, the 16-byte
challenge c, and s = c*sec + k; the returned length is 48 and the
signature is c followed by the 32-byte encoding of s. -/
def jq_sign_seeded (jk : jq_keypair) (hname hv seed : List Nat) : Nat × List Nat :=
  let sec := jk.private_key
  let epub := jk.public_key.enc
  let k := make_sign_k sec epub hname hv seed
  let r := point_mulgen k
  let c := make_challenge r epub hname hv
  let s := scalar_add (scalar_mul (scalar_decode_reduce c) sec) k
  (48, c ++ scalar_encode s)

/-- Embeds `jq_sign` (no seed). -/
def jq_sign (jk : jq_keypair) (hname hv : List Nat) : Nat × List Nat :=
  jq_sign_seeded jk hname hv []

/-- Embeds `jq_verify`: reject unless the signature length is exactly 48;
reject the neutral (invalid) public key; decode the last 32 bytes as a
canonical scalar s; read the 128-bit integer c from the first 16 bytes;
recompute R = s*G - c*Q with the variable-time combined multiplication,
recompute the challenge from it, and accept exactly when it matches the
first 16 signature bytes. -/
def jq_verify (sig : List Nat) (sig_len : Nat) (pk : jq_public_key)
    (hname hv : List Nat) : Nat :=
  if sig_len ≠ 48 then 0
  else if point_is_neutral pk.p then 0
  else
    let sd := scalar_decode ((sig.drop 16).take 32)
    if !sd.2 then 0
    else
      let c := leVal (sig.take 16)
      let p := point_mul128_add_mulgen_vartime (point_neg pk.p) c sd.1
      if make_challenge p pk.enc hname hv = sig.take 16 then 1 else 0

/-- The public-key ordering of `jq_ECDH`: the borrow chain of the source
runs over the bytes from index 31 down to 0, so it compares the two
32-byte encodings as integers whose most significant byte is byte 0; its
final borrow - the mask `z1` - is set exactly when the own encoding is the
smaller one. -/
def ecdh_lex_lt (a b : List Nat) : Bool := leVal a.reverse < leVal b.reverse

/-- Embeds `jq_ECDH`: `bad` is the all-ones 32-bit mask when the peer
point is the neutral (invalid) sentinel; Z = sec*Q_peer is encoded as the
candidate shared secret, which constant-time masking replaces, byte by
byte, with the encoding of the own private scalar when `bad` is set; the
output is the hash of the lexicographically ordered two public-key
encodings, the domain byte 0x53 - (bad and 0x0D) (0x53 on success, 0x46 on
failure), and the (possibly replaced) shared bytes.  The C return value is
(int)(bad + 1) computed in 32-bit arithmetic: 1 on success, 0 on
failure. -/
def jq_ECDH (jk : jq_keypair) (pk_peer : jq_public_key) : Nat × List Nat :=
  let bad : Nat := if point_is_neutral pk_peer.p then 0xFFFFFFFF else 0
  let s := jk.private_key
  let z := point_mul pk_peer.p s
  let shared := point_encode z
  let tmp := scalar_encode s
  let shared := List.zipWith (fun a b => a ^^^ bad &&& (a ^^^ b)) shared tmp
  let self := jk.public_key.enc
  let peer := pk_peer.enc
  let z1 := ecdh_lex_lt self peer
  let low := if z1 then self else peer
  let high := if z1 then peer else self
  let bc := blake2s_init 32
  let bc := blake2s_update bc (low ++ high)
  let bc := blake2s_update bc [0x53 - (bad &&& 0x0D)]
  let bc := blake2s_update bc shared
  ((bad + 1) % 2 ^ 32, blake2s_final bc)

/-! ## Supporting lemmas -/

theorem process_block_length (h d : List Nat) (t : Nat) (f : Bool) :
    (process_block h d t f).length = 8 := by
  simp [process_block]

theorem wordsToBytes_length (l : List Nat) : (wordsToBytes l).length = 4 * l.length := by
  induction l with
  | nil => rfl
  | cons w t ih => simp [wordsToBytes, ih, leBytes_length]; ring

theorem wordsToBytes_lt (l : List Nat) : ∀ b ∈ wordsToBytes l, b < 256 := by
  induction l with
  | nil => simp [wordsToBytes]
  | cons w t ih =>
    intro b hb
    simp only [wordsToBytes, List.mem_append] at hb
    rcases hb with h | h
    · exact leBytes_lt 4 w b h
    · exact ih b h

theorem blake2s_final_length (bc : blake2s_context) :
    (blake2s_final bc).length = min bc.out_len 32 := by
  simp [blake2s_final, wordsToBytes_length, process_block_length]

theorem blake2s_final_lt (bc : blake2s_context) :
    ∀ b ∈ blake2s_final bc, b < 256 := by
  intro b hb
  exact wordsToBytes_lt _ b (List.mem_of_mem_take hb)

theorem blake2s_update_out_len (bc : blake2s_context) (data : List Nat) :
    (blake2s_update bc data).out_len = bc.out_len := by
  unfold blake2s_update
  split
  · rfl
  · split
    · dsimp only
      split
      · rfl
      · rfl
    · rfl

theorem make_challenge_length (r : point) (epub hname hv : List Nat) :
    (make_challenge r epub hname hv).length = 16 := by
  unfold make_challenge
  by_cases h : hname = [] <;>
    simp [h, List.length_take, blake2s_final_length, blake2s_update_out_len,
      blake2s_init]

theorem make_challenge_lt (r : point) (epub hname hv : List Nat) :
    ∀ b ∈ make_challenge r epub hname hv, b < 256 := by
  intro b hb
  exact blake2s_final_lt _ b (List.mem_of_mem_take hb)

theorem scalar_encode_leVal (s : scalar) : leVal (scalar_encode s) = s.val := by
  apply leVal_leBytes
  calc s.val < rv := ZMod.val_lt s
    _ < 2 ^ (8 * 32) := by decide

theorem scalar_encode_length (s : scalar) : (scalar_encode s).length = 32 :=
  leBytes_length 32 s.val

/-- C2: for every keypair, hash name, message and seed, `jq_sign_seeded`
returns 48 and writes a signature laid out as the 16-byte challenge c
(which is the output of `make_challenge` on R = k*G) followed by the
32-byte canonical encoding of the scalar s = k + c*sec mod r, where c is
read back from the first 16 output bytes as a (128-bit) little-endian
integer, sec is the private scalar and k the deterministically derived
per-signature scalar `make_sign_k`. -/
theorem C2_sign_layout (jk : jq_keypair) (hname hv seed : List Nat) :
    (jq_sign_seeded jk hname hv seed).1 = 48 ∧
    (jq_sign_seeded jk hname hv seed).2.length = 48 ∧
    (jq_sign_seeded jk hname hv seed).2.take 16 =
      make_challenge (point_mulgen (make_sign_k jk.private_key jk.public_key.enc
        hname hv seed)) jk.public_key.enc hname hv ∧
    leVal ((jq_sign_seeded jk hname hv seed).2.take 16) < 2 ^ 128 ∧
    (jq_sign_seeded jk hname hv seed).2.drop 16 =
      scalar_encode (make_sign_k jk.private_key jk.public_key.enc hname hv seed +
        (leVal ((jq_sign_seeded jk hname hv seed).2.take 16) : scalar) * jk.private_key) ∧
    leVal ((jq_sign_seeded jk hname hv seed).2.drop 16) < rv := by
  set k := make_sign_k jk.private_key jk.public_key.enc hname hv seed with hk
  set c := make_challenge (point_mulgen k) jk.public_key.enc hname hv with hc
  have hclen : c.length = 16 := make_challenge_length _ _ _ _
  have hres : jq_sign_seeded jk hname hv seed =
      (48, c ++ scalar_encode (scalar_add (scalar_mul (scalar_decode_reduce c)
        jk.private_key) k)) := rfl
  have htake : (jq_sign_seeded jk hname hv seed).2.take 16 = c := by
    rw [hres, ← hclen, List.take_left]
  have hs : scalar_add (scalar_mul (scalar_decode_reduce c) jk.private_key) k =
      k + (leVal c : scalar) * jk.private_key := by
    simp only [scalar_add, scalar_mul, scalar_decode_reduce]
    ring
  have hdrop : (jq_sign_seeded jk hname hv seed).2.drop 16 =
      scalar_encode (k + (leVal c : scalar) * jk.private_key) := by
    rw [hres, ← hclen, List.drop_left, hs]
  refine ⟨by rw [hres], ?_, htake, ?_, ?_, ?_⟩
  · rw [hres]
    simp [scalar_encode_length, hclen]
  · rw [htake]
    have := leVal_lt c (make_challenge_lt _ _ _ _)
    rw [hclen] at this
    calc leVal c < 256 ^ 16 := this
      _ = 2 ^ 128 := by norm_num
  · rw [htake, hdrop]
  · rw [hdrop, scalar_encode_leVal]
    exact ZMod.val_lt _

theorem mask32_of_lt (x : Nat) (h : x < 2 ^ 32) : 0xFFFFFFFF &&& x = x := by
  have h2 : (0xFFFFFFFF : Nat) = 2 ^ 32 - 1 := by norm_num
  rw [h2, Nat.land_comm, Nat.and_pow_two_sub_one_eq_mod, Nat.mod_eq_of_lt h]

/-- With the all-ones mask, the byte-masking loop of `jq_ECDH` replaces
the candidate shared bytes with the second operand. -/
theorem ecdh_mask_ones (A B : List Nat) (hA : ∀ b ∈ A, b < 256)
    (hB : ∀ b ∈ B, b < 256) (hlen : A.length = B.length) :
    List.zipWith (fun a b => a ^^^ 0xFFFFFFFF &&& (a ^^^ b)) A B = B := by
  induction A generalizing B with
  | nil =>
    cases B with
    | nil => rfl
    | cons b t => simp at hlen
  | cons a ta ih =>
    cases B with
    | nil => simp at hlen
    | cons b tb =>
      have ha : a < 256 := hA a (List.mem_cons_self a ta)
      have hb : b < 256 := hB b (List.mem_cons_self b tb)
      have hxor : a ^^^ b < 2 ^ 32 := by
        have h8 : a ^^^ b < 2 ^ 8 := Nat.xor_lt_two_pow ha hb
        calc a ^^^ b < 2 ^ 8 := h8
          _ ≤ 2 ^ 32 := by norm_num
      have hh : a ^^^ 0xFFFFFFFF &&& (a ^^^ b) = b := by
        rw [mask32_of_lt _ hxor, ← Nat.xor_assoc, Nat.xor_self, Nat.zero_xor]
      calc List.zipWith (fun a b => a ^^^ 0xFFFFFFFF &&& (a ^^^ b)) (a :: ta) (b :: tb)
          = (a ^^^ 0xFFFFFFFF &&& (a ^^^ b)) ::
            List.zipWith (fun a b => a ^^^ 0xFFFFFFFF &&& (a ^^^ b)) ta tb := rfl
        _ = b :: tb := by
            rw [hh, ih tb (fun x hx => hA x (List.mem_cons_of_mem a hx))
              (fun x hx => hB x (List.mem_cons_of_mem b hx)) (by simpa using hlen)]

/-- With the zero mask, the byte-masking loop of `jq_ECDH` keeps the
candidate shared bytes. -/
theorem ecdh_mask_zero (A B : List Nat) (hlen : A.length = B.length) :
    List.zipWith (fun a b => a ^^^ 0 &&& (a ^^^ b)) A B = A := by
  induction A generalizing B with
  | nil => rfl
  | cons a ta ih =>
    cases B with
    | nil => simp at hlen
    | cons b tb =>
      have hh : a ^^^ 0 &&& (a ^^^ b) = a := by
        rw [Nat.zero_and, Nat.xor_zero]
      calc List.zipWith (fun a b => a ^^^ 0 &&& (a ^^^ b)) (a :: ta) (b :: tb)
          = (a ^^^ 0 &&& (a ^^^ b)) ::
            List.zipWith (fun a b => a ^^^ 0 &&& (a ^^^ b)) ta tb := rfl
        _ = a :: ta := by rw [hh, ih tb (by simpa using hlen)]

theorem gf_encode_length (a : gf) : (gf_encode a).length = 32 := leBytes_length _ _

theorem gf_encode_lt (a : gf) : ∀ b ∈ gf_encode a, b < 256 := leBytes_lt _ _

theorem point_encode_length (p : point) : (point_encode p).length = 32 := by
  simp [point_encode, gf_encode_length]

theorem point_encode_lt (p : point) : ∀ b ∈ point_encode p, b < 256 := by
  intro b hb
  exact gf_encode_lt _ b hb

theorem scalar_encode_lt (s : scalar) : ∀ b ∈ scalar_encode s, b < 256 := leBytes_lt _ _

/-- C5: for every own keypair and peer public key, `jq_ECDH` writes
exactly 32 output bytes and returns 1 when the peer key is valid and 0
when it is the invalid (identity) sentinel; the hashed material is the
two ordered public-key encodings, then the domain byte - 0x46 in the
invalid case instead of 0x53 - then the 32-byte shared-secret value,
which in the invalid case is the encoding of the own private scalar
(selected by the constant-time byte masking) instead of the encoding of
sec*Q_peer. -/
theorem C5_ECDH_spec (jk : jq_keypair) (peer : jq_public_key) :
    (jq_ECDH jk peer).2.length = 32 ∧
    (jq_ECDH jk peer).1 = (if point_is_neutral peer.p then 0 else 1) ∧
    (jq_ECDH jk peer).2 = blake2s_final (blake2s_update (blake2s_update (blake2s_update
      (blake2s_init 32)
      ((if ecdh_lex_lt jk.public_key.enc peer.enc then jk.public_key.enc else peer.enc) ++
       (if ecdh_lex_lt jk.public_key.enc peer.enc then peer.enc else jk.public_key.enc)))
      [if point_is_neutral peer.p then 0x46 else 0x53])
      (if point_is_neutral peer.p then scalar_encode jk.private_key
       else point_encode (point_mul peer.p jk.private_key))) := by
  have hlen32 : ∀ data1 data2 data3 : List Nat,
      (blake2s_final (blake2s_update (blake2s_update (blake2s_update
        (blake2s_init 32) data1) data2) data3)).length = 32 := by
    intro d1 d2 d3
    rw [blake2s_final_length, blake2s_update_out_len, blake2s_update_out_len,
      blake2s_update_out_len]
    rfl
  have hzlen : (point_encode (point_mul peer.p jk.private_key)).length =
      (scalar_encode jk.private_key).length := by
    rw [point_encode_length, scalar_encode_length]
  by_cases hb : point_is_neutral peer.p
  · have hres : jq_ECDH jk peer = (0,
        blake2s_final (blake2s_update (blake2s_update (blake2s_update
          (blake2s_init 32)
          ((if ecdh_lex_lt jk.public_key.enc peer.enc then jk.public_key.enc else peer.enc) ++
           (if ecdh_lex_lt jk.public_key.enc peer.enc then peer.enc else jk.public_key.enc)))
          [0x46])
          (scalar_encode jk.private_key))) := by
      unfold jq_ECDH
      rw [hb]
      simp only [reduceIte]
      rw [ecdh_mask_ones _ _ (point_encode_lt _) (scalar_encode_lt _) hzlen]
      have hland : (4294967295 : Nat) &&& 13 = 13 := by decide
      rw [hland]
      norm_num
    rw [hres, hb]
    exact ⟨hlen32 _ _ _, rfl, rfl⟩
  · rw [Bool.not_eq_true] at hb
    have hres : jq_ECDH jk peer = (1,
        blake2s_final (blake2s_update (blake2s_update (blake2s_update
          (blake2s_init 32)
          ((if ecdh_lex_lt jk.public_key.enc peer.enc then jk.public_key.enc else peer.enc) ++
           (if ecdh_lex_lt jk.public_key.enc peer.enc then peer.enc else jk.public_key.enc)))
          [0x53])
          (point_encode (point_mul peer.p jk.private_key)))) := by
      unfold jq_ECDH
      rw [hb]
      simp only [Bool.false_eq_true, reduceIte, if_false]
      rw [ecdh_mask_zero _ _ hzlen]
      have hland : (0 : Nat) &&& 13 = 0 := by decide
      rw [hland]
      norm_num
    rw [hres, hb]
    exact ⟨hlen32 _ _ _, rfl, rfl⟩

/-- C4 counterexample: a keypair holding the invalid-key sentinel (zero
private scalar, identity public key with an all-zero stored encoding).
`jq_sign_seeded` performs no invalid-key check: on this sentinel keypair it
returns 48 - the very same success value (the signature length) it returns
for every valid keypair - so the signing path does not report failure,
contradicting the claim. -/
theorem C4_cex :
    (jq_sign_seeded ⟨0, ⟨point_neutral, List.replicate 32 0⟩⟩ [] [] []).1 = 48 := rfl

/-- C4 amended: decoding the 32-byte all-zero encoding at the point level
succeeds (all-ones mask) and yields the identity element, and a key
structure holding the invalid-key sentinel makes verification and ECDH
report failure (return 0); signing, however, has no failure path: it
returns 48 for every keypair, the sentinel included. -/
theorem C4_amended :
    ((point_decode (List.replicate 32 0)).2 = true ∧
     point_is_neutral (point_decode (List.replicate 32 0)).1 = true) ∧
    (∀ (sig : List Nat) (len : Nat) (pk : jq_public_key) (hname hv : List Nat),
      point_is_neutral pk.p = true → jq_verify sig len pk hname hv = 0) ∧
    (∀ (jk : jq_keypair) (peer : jq_public_key),
      point_is_neutral peer.p = true → (jq_ECDH jk peer).1 = 0) ∧
    (∀ (jk : jq_keypair) (hname hv seed : List Nat),
      (jq_sign_seeded jk hname hv seed).1 = 48) := by
  refine ⟨⟨by decide, by decide⟩, ?_, ?_, ?_⟩
  · intro sig len pk hname hv h
    simp [jq_verify, h]
  · intro jk peer h
    simp [jq_ECDH, h]
  · intro jk hname hv seed
    rfl

theorem C4_amended_witness :
    point_is_neutral (point_neutral) = true ∧
    jq_verify (List.replicate 48 0) 48 ⟨point_neutral, List.replicate 32 0⟩ [] [] = 0 ∧
    (jq_ECDH ⟨0, ⟨point_neutral, List.replicate 32 0⟩⟩
      ⟨point_neutral, List.replicate 32 0⟩).1 = 0 ∧
    (jq_sign_seeded ⟨0, ⟨point_neutral, List.replicate 32 0⟩⟩ [] [] [1]).1 = 48 :=
  ⟨by decide,
   C4_amended.2.1 (List.replicate 48 0) 48 ⟨point_neutral, List.replicate 32 0⟩ [] []
     (by decide),
   C4_amended.2.2.1 ⟨0, ⟨point_neutral, List.replicate 32 0⟩⟩
     ⟨point_neutral, List.replicate 32 0⟩ (by decide),
   C4_amended.2.2.2 ⟨0, ⟨point_neutral, List.replicate 32 0⟩⟩ [] [] [1]⟩

/-- C8 counterexample: `point_mulgen` at the scalar 1 does not encode to
the byte 0x03 followed by 31 zero bytes (the resulting point is the
representative (3:1:1:1) of the base point, whose e coordinate 3 is odd,
i.e. negative, so the encoder negates and outputs u = -1 = q-1, not
u = 3). -/
theorem C8_cex : point_encode (point_mulgen 1) ≠ 3 :: List.replicate 31 0 := by decide

/-- C8 amended: for the jq255e curve, `point_mulgen` applied to the scalar
1 yields a point whose 32-byte encoding is the canonical little-endian
encoding of q - 1 (the base point G = (-3, -1) encodes to u = -1): the
bytes 24 B7 followed by 29 bytes FF and the final byte 7F. -/
theorem C8_amended :
    point_encode (point_mulgen 1) = [0x24, 0xB7] ++ List.replicate 29 0xFF ++ [0x7F] := by
  decide

/-- C10: for a public-key structure whose point is the identity sentinel,
`jq_encode_public_key` returns 32 and writes 32 bytes 0x00, masking out the
stored-encoding slot; for a valid key it writes back exactly the stored
encoding bytes.  Moreover `jq_decode_public_key` of any 32-byte input
stores the original source bytes in the encoding slot, also when decoding
failed. -/
theorem C10_encode_public_key (pk : jq_public_key) (hlen : pk.enc.length = 32)
    (src : List Nat) :
    jq_encode_public_key pk =
      (32, if point_is_neutral pk.p then List.replicate 32 0 else pk.enc) ∧
    ((jq_decode_public_key src 32).1).enc = src := by
  constructor
  · unfold jq_encode_public_key
    by_cases h : point_is_neutral pk.p
    · simp only [h, Bool.not_true, Bool.false_eq_true, if_false, if_true, reduceIte]
      rw [← hlen]
      simp [List.map_const']
    · simp only [h, Bool.not_false, Bool.false_eq_true, if_false, if_true, reduceIte]
      simp
  · rfl

theorem C10_witness :
    (⟨point_neutral, List.replicate 32 7⟩ : jq_public_key).enc.length = 32 ∧
    (jq_encode_public_key ⟨point_neutral, List.replicate 32 7⟩ =
      (32, if point_is_neutral (⟨point_neutral, List.replicate 32 7⟩ : jq_public_key).p
           then List.replicate 32 0
           else (⟨point_neutral, List.replicate 32 7⟩ : jq_public_key).enc) ∧
     ((jq_decode_public_key (List.replicate 32 1) 32).1).enc = List.replicate 32 1) :=
  ⟨by decide,
   C10_encode_public_key ⟨point_neutral, List.replicate 32 7⟩ (by decide)
     (List.replicate 32 1)⟩

/-! ## Claim C6: the GLV scalar split -/

/-- The endomorphism eigenvalue on scalars: μ = eU/eV = √(-1) mod r, the
fixed constant against which the split identity k = k0 + k1·μ (mod r) is
stated (spec §"scalar splitting"). -/
def muV : Nat := 0x3304A73398CAEADB37382C8933C3F6D9B153382D88E2CF399C46EF0C23DF370D

/-- `mul_divr_rounded k e` computes floor((k*e + (r-1)/2) / r), i.e.
round(k*e/r) with ties rounded down, for k < r and e < 2^127 - 2 (the
ranges of its two call sites in `scalar_split`): the candidate quotient
y = floor(z/2^254) + 1 is off by at most one from floor(z/r), and the top
bit of (z mod 2^254) + y*R0 = z - y*r + 2^254 decides the adjustment. -/
lemma mul_divr_rounded_eq (k e : Nat) (hk : k < rv) (he : e < 2 ^ 127 - 2) :
    mul_divr_rounded k e = (k * e + HRv) / rv := by
  simp only [mul_divr_rounded]
  set z := k * e + HRv with hzdef
  have hzlt : z < rv * 2 ^ 127 := by
    have h1 : k * e ≤ (rv - 1) * (2 ^ 127 - 3) :=
      Nat.mul_le_mul (by omega) (by omega)
    have h2 : (rv - 1) * (2 ^ 127 - 3) + HRv < rv * 2 ^ 127 := by decide
    omega
  set w := z / 2 ^ 254 with hwdef
  have hw : w < 2 ^ 127 := by
    rw [hwdef]
    apply Nat.div_lt_of_lt_mul
    calc z < rv * 2 ^ 127 := hzlt
      _ ≤ 2 ^ 254 * 2 ^ 127 := Nat.mul_le_mul_right _ (by decide)
  have hy : (w % 2 ^ 128 + 1) % 2 ^ 128 = w + 1 := by
    rw [Nat.mod_eq_of_lt (show w < 2 ^ 128 by omega),
      Nat.mod_eq_of_lt (show w + 1 < 2 ^ 128 by omega)]
  have hzdm := Nat.mod_add_div z (2 ^ 254)
  have hzm : z % 2 ^ 254 < 2 ^ 254 := Nat.mod_lt _ (by norm_num)
  set Q := z / rv with hQdef
  have hQlb : w ≤ Q := by
    rw [hwdef, hQdef]
    exact Nat.div_le_div_left (by decide) (by decide)
  have hQub : Q ≤ w + 1 := by
    have hc : rv + R0v = 2 ^ 254 := by decide
    have hsum : rv * (w + 2) + R0v * (w + 2) = 2 ^ 254 * w + 2 ^ 255 := by
      calc rv * (w + 2) + R0v * (w + 2) = (rv + R0v) * (w + 2) := by ring
        _ = 2 ^ 254 * (w + 2) := by rw [hc]
        _ = 2 ^ 254 * w + 2 ^ 255 := by ring
    have hR0w : R0v * (w + 2) ≤ R0v * (2 ^ 127 + 1) :=
      Nat.mul_le_mul_left _ (by omega)
    have hnum : R0v * (2 ^ 127 + 1) + 2 ^ 254 ≤ 2 ^ 255 := by decide
    have h3 : Q < w + 2 := by
      rw [hQdef, Nat.div_lt_iff_lt_mul (show 0 < rv by decide)]
      calc z < rv * (w + 2) := by omega
        _ = (w + 2) * rv := Nat.mul_comm _ _
    omega
  have hs_id : z % 2 ^ 254 + (w + 1) * R0v + (w + 1) * rv = z + 2 ^ 254 := by
    have hc : R0v + rv = 2 ^ 254 := by decide
    have h1 : (w + 1) * R0v + (w + 1) * rv = 2 ^ 254 * w + 2 ^ 254 := by
      calc (w + 1) * R0v + (w + 1) * rv = (R0v + rv) * (w + 1) := by ring
        _ = 2 ^ 254 * (w + 1) := by rw [hc]
        _ = 2 ^ 254 * w + 2 ^ 254 := by ring
    omega
  have hsb : z % 2 ^ 254 + (w + 1) * R0v < 2 ^ 255 := by
    have h1 : (w + 1) * R0v ≤ 2 ^ 127 * R0v :=
      Nat.mul_le_mul_right _ (by omega)
    have h2 : 2 ^ 254 + 2 ^ 127 * R0v < 2 ^ 255 := by decide
    omega
  have hsmod : (z % 2 ^ 254 + (w + 1) * R0v) % 2 ^ 256
      = z % 2 ^ 254 + (w + 1) * R0v := Nat.mod_eq_of_lt (by omega)
  have hhi : (z % 2 ^ 254 + (w + 1) * R0v) / 2 ^ 224 % 2 ^ 32 / 2 ^ 30
      = (z % 2 ^ 254 + (w + 1) * R0v) / 2 ^ 254 := by
    have h1 : (2 : Nat) ^ 32 = 2 ^ 30 * 4 := by norm_num
    rw [h1, Nat.mod_mul_right_div_self, Nat.div_div_eq_div_mul]
    have h2 : (2 : Nat) ^ 224 * 2 ^ 30 = 2 ^ 254 := by norm_num
    rw [h2]
    have h3 : (z % 2 ^ 254 + (w + 1) * R0v) / 2 ^ 254 < 2 := by
      apply Nat.div_lt_of_lt_mul
      calc z % 2 ^ 254 + (w + 1) * R0v < 2 ^ 255 := hsb
        _ = 2 ^ 254 * 2 := by norm_num
    rw [Nat.mod_eq_of_lt (by omega)]
  rw [hy, hsmod, hhi]
  by_cases hcase : (w + 1) * rv ≤ z
  · have hyQ : w + 1 = Q := by
      have h1 : w + 1 ≤ Q := by
        rw [hQdef, Nat.le_div_iff_mul_le (show 0 < rv by decide)]
        exact hcase
      omega
    have hdiv : (z % 2 ^ 254 + (w + 1) * R0v) / 2 ^ 254 = 1 := by
      apply Nat.div_eq_of_lt_le
      · omega
      · omega
    rw [hdiv]
    omega
  · push_neg at hcase
    have hyQ : w = Q := by
      have h1 : Q < w + 1 := by
        rw [hQdef, Nat.div_lt_iff_lt_mul (show 0 < rv by decide)]
        exact hcase
      omega
    have hdiv : (z % 2 ^ 254 + (w + 1) * R0v) / 2 ^ 254 = 0 :=
      Nat.div_eq_of_lt (by omega)
    rw [hdiv]
    omega

/-- The two chained `sub128` of `scalar_split` compute the 128-bit
two's-complement representative of a - b - c. -/
lemma sub128_wrap2 (a b c : Nat) :
    ((a % 2 ^ 128 + 2 ^ 128 - b % 2 ^ 128) % 2 ^ 128 + 2 ^ 128 - c % 2 ^ 128) % 2 ^ 128
      = (((a : Int) - b - c) % 2 ^ 128).toNat := by
  omega

/-- A single `sub128` computes the 128-bit two's-complement representative
of b - c. -/
lemma sub128_wrap1 (b c : Nat) :
    (b % 2 ^ 128 + 2 ^ 128 - c % 2 ^ 128) % 2 ^ 128 = (((b : Int) - c) % 2 ^ 128).toNat := by
  omega

/-- `abs128` on the two's-complement representative of a signed value D
with |D| < 2^127 recovers |D| and the sign bit of D. -/
lemma abs128_eq (D : Int) (h1 : -(2 ^ 127) < D) (h2 : D < 2 ^ 127) :
    abs128 ((D % 2 ^ 128).toNat) = (D.natAbs, if D < 0 then 1 else 0) := by
  simp only [abs128]
  by_cases h : D < 0
  · have hs : (D % 2 ^ 128).toNat / 2 ^ 127 = 1 := by omega
    have hv : (2 ^ 128 - (D % 2 ^ 128).toNat) % 2 ^ 128 = D.natAbs := by omega
    rw [hs]
    simp only [reduceIte]
    rw [if_pos h, hv]
  · have hs : (D % 2 ^ 128).toNat / 2 ^ 127 = 0 := by omega
    have hv : (D % 2 ^ 128).toNat = D.natAbs := by omega
    rw [hs]
    rw [if_neg (show ¬((0 : Nat) = 1) by norm_num), if_neg h, hv]

/-- The lattice algebra of `scalar_split`, for exact rounded quotients dq
(of k*eU) and cq (of k*eV) with remainders ρd, ρc shifted by (r-1)/2: the
signed values k0 = k - dq*eU - cq*eV and k1 = dq*eV - cq*eU are below
2^127 in absolute value (since r ·k0 and r·k1 are combinations of the
remainders, bounded by (r-1)/2·(eU+eV) < 2^127·r as eU^2 + eV^2 = r), and
k0 + k1·μ ≡ k (mod r) since eU ≡ μ·eV and μ^2 ≡ -1 (mod r). -/
lemma scalar_split_core (k dq cq ρd ρc : Nat)
    (hd : rv * dq + ρd = k * eUv + HRv) (hρd : ρd < rv)
    (hc : rv * cq + ρc = k * eVv + HRv) (hρc : ρc < rv) :
    (-(2 ^ 127) < (k : Int) - (dq * eUv : Nat) - (cq * eVv : Nat) ∧
      (k : Int) - (dq * eUv : Nat) - (cq * eVv : Nat) < 2 ^ 127) ∧
    (-(2 ^ 127) < ((dq * eVv : Nat) : Int) - (cq * eUv : Nat) ∧
      ((dq * eVv : Nat) : Int) - (cq * eUv : Nat) < 2 ^ 127) ∧
    (((((k : Int) - (dq * eUv : Nat) - (cq * eVv : Nat)) +
        (((dq * eVv : Nat) : Int) - (cq * eUv : Nat)) * (muV : Int) : Int) : ZMod rv)
      = (k : ZMod rv)) := by
  have hK0cast : (k : Int) - (dq * eUv : Nat) - (cq * eVv : Nat)
      = (k : Int) - (dq : Int) * eUv - (cq : Int) * eVv := by push_cast; ring
  have hK1cast : ((dq * eVv : Nat) : Int) - (cq * eUv : Nat)
      = (dq : Int) * eVv - (cq : Int) * eUv := by push_cast; ring
  rw [hK0cast, hK1cast]
  have hdI : (rv : Int) * dq + ρd = k * eUv + HRv := by exact_mod_cast hd
  have hcI : (rv : Int) * cq + ρc = k * eVv + HRv := by exact_mod_cast hc
  have hE : (eUv : Int) * eUv + eVv * eVv = rv := by decide
  have hK0 : (rv : Int) * ((k : Int) - (dq : Int) * eUv - (cq : Int) * eVv)
      = ((ρd : Int) - HRv) * eUv + ((ρc : Int) - HRv) * eVv := by
    linear_combination (-(eUv : Int)) * hdI - (eVv : Int) * hcI - (k : Int) * hE
  have hK1 : (rv : Int) * ((dq : Int) * eVv - (cq : Int) * eUv)
      = ((ρc : Int) - HRv) * eUv - ((ρd : Int) - HRv) * eVv := by
    linear_combination (eVv : Int) * hdI - (eUv : Int) * hcI
  have hrv2 : rv = 2 * HRv + 1 := by decide
  have h1 : (ρd : Int) - HRv ≤ HRv := by omega
  have h2 : -(HRv : Int) ≤ (ρd : Int) - HRv := by omega
  have h3 : (ρc : Int) - HRv ≤ HRv := by omega
  have h4 : -(HRv : Int) ≤ (ρc : Int) - HRv := by omega
  have hUnn : (0 : Int) ≤ (eUv : Int) := Int.natCast_nonneg _
  have hVnn : (0 : Int) ≤ (eVv : Int) := Int.natCast_nonneg _
  have hBnum : (HRv : Int) * eUv + (HRv : Int) * eVv < (rv : Int) * 2 ^ 127 := by decide
  have hrvpos : (0 : Int) < rv := by decide
  have hub0 : (rv : Int) * ((k : Int) - (dq : Int) * eUv - (cq : Int) * eVv)
      < (rv : Int) * 2 ^ 127 := by
    rw [hK0]
    have e1 := mul_le_mul_of_nonneg_right h1 hUnn
    have e2 := mul_le_mul_of_nonneg_right h3 hVnn
    linarith
  have hlb0 : (rv : Int) * -(2 ^ 127)
      < (rv : Int) * ((k : Int) - (dq : Int) * eUv - (cq : Int) * eVv) := by
    rw [hK0]
    have e1 := mul_le_mul_of_nonneg_right h2 hUnn
    have e2 := mul_le_mul_of_nonneg_right h4 hVnn
    linarith
  have hub1 : (rv : Int) * ((dq : Int) * eVv - (cq : Int) * eUv)
      < (rv : Int) * 2 ^ 127 := by
    rw [hK1]
    have e1 := mul_le_mul_of_nonneg_right h3 hUnn
    have e2 := mul_le_mul_of_nonneg_right h2 hVnn
    linarith
  have hlb1 : (rv : Int) * -(2 ^ 127)
      < (rv : Int) * ((dq : Int) * eVv - (cq : Int) * eUv) := by
    rw [hK1]
    have e1 := mul_le_mul_of_nonneg_right h4 hUnn
    have e2 := mul_le_mul_of_nonneg_right h1 hVnn
    linarith
  refine ⟨⟨lt_of_mul_lt_mul_left hlb0 (le_of_lt hrvpos),
      lt_of_mul_lt_mul_left hub0 (le_of_lt hrvpos)⟩,
    ⟨lt_of_mul_lt_mul_left hlb1 (le_of_lt hrvpos),
      lt_of_mul_lt_mul_left hub1 (le_of_lt hrvpos)⟩, ?_⟩
  have hMU : (eUv : ZMod rv) = (muV : ZMod rv) * (eVv : ZMod rv) := by decide
  have hM2 : (muV : ZMod rv) * (muV : ZMod rv) = -1 := by decide
  push_cast
  linear_combination (-(dq : ZMod rv) - (cq : ZMod rv) * (muV : ZMod rv)) * hMU
    - (cq : ZMod rv) * (eVv : ZMod rv) * hM2

/-- `scalar_split` in closed form: the outputs are the absolute values and
sign bits of k0 = k - dq*eU - cq*eV and k1 = dq*eV - cq*eU, dq and cq
being the exact rounded quotients of k*eU/r and k*eV/r. -/
lemma scalar_split_eq (k : Nat) (hk : k < rv) :
    scalar_split k =
      (((k : Int) - ((k * eUv + HRv) / rv * eUv : Nat)
          - ((k * eVv + HRv) / rv * eVv : Nat)).natAbs,
       ((((k * eUv + HRv) / rv * eVv : Nat) : Int)
          - ((k * eVv + HRv) / rv * eUv : Nat)).natAbs,
       (if ((k : Int) - ((k * eUv + HRv) / rv * eUv : Nat)
          - ((k * eVv + HRv) / rv * eVv : Nat)) < 0 then 1 else 0) +
       2 * (if ((((k * eUv + HRv) / rv * eVv : Nat) : Int)
          - ((k * eVv + HRv) / rv * eUv : Nat)) < 0 then 1 else 0)) := by
  obtain ⟨⟨hb0l, hb0u⟩, ⟨hb1l, hb1u⟩, -⟩ :=
    scalar_split_core k ((k * eUv + HRv) / rv) ((k * eVv + HRv) / rv)
      ((k * eUv + HRv) % rv) ((k * eVv + HRv) % rv)
      (Nat.div_add_mod _ _) (Nat.mod_lt _ (by decide))
      (Nat.div_add_mod _ _) (Nat.mod_lt _ (by decide))
  simp only [scalar_split]
  rw [mul_divr_rounded_eq k eVv hk (by decide), mul_divr_rounded_eq k eUv hk (by decide)]
  rw [sub128_wrap2, sub128_wrap1]
  rw [abs128_eq _ hb0l hb0u, abs128_eq _ hb1l hb1u]

/-- Decoding an (absolute value, sign bit) pair recovers the signed value. -/
lemma signed_of_abs_sign (D : Int) :
    (if (if D < 0 then (1 : Nat) else 0) = 1 then -((D.natAbs : Int))
      else ((D.natAbs : Int))) = D := by
  by_cases hD : D < 0
  · rw [if_pos hD]
    simp only [reduceIte]
    omega
  · rw [if_neg hD, if_neg (show ¬((0 : Nat) = 1) by norm_num)]
    omega

/-- C6: for the jq255e curve and every scalar value k with 0 ≤ k < r,
`scalar_split` returns |k0|, |k1| and their signs (bits 0 and 1 of the
third component) with |k0| < 2^127 and |k1| < 2^127, such that the signed
values satisfy k0 + k1·μ ≡ k (mod r) for the fixed constant
μ = √(-1) mod r (the constant `muV`, equal to eU/eV mod r). -/
theorem C6_scalar_split (k : Nat) (hk : k < rv) :
    (scalar_split k).1 < 2 ^ 127 ∧
    (scalar_split k).2.1 < 2 ^ 127 ∧
    muV * muV % rv = rv - 1 ∧
    (((if (scalar_split k).2.2 % 2 = 1 then -(((scalar_split k).1 : Int))
          else ((scalar_split k).1 : Int)) +
       (if (scalar_split k).2.2 / 2 % 2 = 1 then -(((scalar_split k).2.1 : Int))
          else ((scalar_split k).2.1 : Int)) * (muV : Int) : Int) : ZMod rv)
      = (k : ZMod rv) := by
  obtain ⟨⟨hb0l, hb0u⟩, ⟨hb1l, hb1u⟩, hcong⟩ :=
    scalar_split_core k ((k * eUv + HRv) / rv) ((k * eVv + HRv) / rv)
      ((k * eUv + HRv) % rv) ((k * eVv + HRv) % rv)
      (Nat.div_add_mod _ _) (Nat.mod_lt _ (by decide))
      (Nat.div_add_mod _ _) (Nat.mod_lt _ (by decide))
  rw [scalar_split_eq k hk]
  dsimp only
  set D0 : Int := (k : Int) - ((k * eUv + HRv) / rv * eUv : Nat)
      - ((k * eVv + HRv) / rv * eVv : Nat) with hD0def
  set E0 : Int := (((k * eUv + HRv) / rv * eVv : Nat) : Int)
      - ((k * eVv + HRv) / rv * eUv : Nat) with hE0def
  refine ⟨by omega, by omega, by decide, ?_⟩
  have hsgn0 : ((if D0 < 0 then (1 : Nat) else 0) + 2 * (if E0 < 0 then 1 else 0)) % 2
      = (if D0 < 0 then (1 : Nat) else 0) := by
    by_cases hD : D0 < 0 <;> by_cases hE : E0 < 0 <;> simp [hD, hE]
  have hsgn1 : ((if D0 < 0 then (1 : Nat) else 0) + 2 * (if E0 < 0 then 1 else 0)) / 2 % 2
      = (if E0 < 0 then (1 : Nat) else 0) := by
    by_cases hD : D0 < 0 <;> by_cases hE : E0 < 0 <;> simp [hD, hE]
  rw [hsgn0, hsgn1, signed_of_abs_sign D0, signed_of_abs_sign E0]
  exact hcong

theorem C6_scalar_split_witness :
    1 < rv ∧
    ((scalar_split 1).1 < 2 ^ 127 ∧
     (scalar_split 1).2.1 < 2 ^ 127 ∧
     muV * muV % rv = rv - 1 ∧
     (((if (scalar_split 1).2.2 % 2 = 1 then -(((scalar_split 1).1 : Int))
           else ((scalar_split 1).1 : Int)) +
        (if (scalar_split 1).2.2 / 2 % 2 = 1 then -(((scalar_split 1).2.1 : Int))
           else ((scalar_split 1).2.1 : Int)) * (muV : Int) : Int) : ZMod rv)
       = ((1 : Nat) : ZMod rv)) :=
  ⟨by decide, C6_scalar_split 1 (by decide)⟩

/-! ## Claim C7: the wNAF recoding -/

/-- The signed value of a digit list, Σ sd_i · 2^i (Horner form). -/
def listVal : List Int → Int
  | [] => 0
  | d :: r => d + 2 * listVal r

/-- The buffer left in `x` after running `n` digit steps of the wNAF loop
from position `j` (the loop of `uint_recode_wNAF`, keeping the final
accumulator instead of the digits). -/
def wnafFin (u uLen : Nat) : Nat → Nat → Nat → Nat
  | x, _, 0 => x
  | x, j, n + 1 => wnafFin u uLen (wnafStep (wnafRefill u uLen x j)).2 (j + 1) n

/-- One wNAF digit step preserves the buffer value: d + 2·x2 = x. -/
lemma wnafStep_val (x : Nat) : (wnafStep x).1 + 2 * ((wnafStep x).2 : Int) = (x : Int) := by
  simp only [wnafStep]
  split_ifs with h1 h2 <;> dsimp only <;> omega

/-- Every emitted digit is zero or odd with absolute value at most 15. -/
lemma wnafStep_shape (x : Nat) :
    (wnafStep x).1 = 0 ∨ ((wnafStep x).1 % 2 = 1 ∧ (wnafStep x).1.natAbs ≤ 15) := by
  simp only [wnafStep]
  split_ifs with h1 h2 <;> dsimp only <;> omega

/-- After a non-zero digit the buffer is divisible by 16. -/
lemma wnafStep_div16 (x : Nat) : (wnafStep x).1 = 0 ∨ 16 ∣ (wnafStep x).2 := by
  simp only [wnafStep]
  split_ifs with h1 h2 <;> dsimp only <;> omega

/-- On an even buffer the step emits a zero digit and halves. -/
lemma wnafStep_even (y : Nat) (h : y % 2 = 0) : wnafStep y = (0, y / 2) := by
  unfold wnafStep
  rw [if_neg (by omega)]

/-- The step at least halves a buffer bounded by a power of two. -/
lemma wnafStep_decay (x q : Nat) (h : x ≤ 2 ^ (q + 1)) : (wnafStep x).2 ≤ 2 ^ q := by
  have hps : (2 : Nat) ^ (q + 1) = 2 * 2 ^ q := by ring
  rcases le_or_lt 4 q with hq | hq
  · have h32 : (2 : Nat) ^ (q + 1) = 32 * 2 ^ (q - 4) := by
      rw [show q + 1 = 5 + (q - 4) by omega, pow_add]
      norm_num
    have h16 : (2 : Nat) ^ q = 16 * 2 ^ (q - 4) := by
      rw [show q = 4 + (q - 4) by omega, pow_add]
      norm_num
    simp only [wnafStep]
    split_ifs with h1 h2 <;> dsimp only <;> omega
  · have hsm : (2 : Nat) ^ (q + 1) ≤ 16 := by
      calc (2 : Nat) ^ (q + 1) ≤ 2 ^ 4 := Nat.pow_le_pow_right (by norm_num) (by omega)
        _ = 16 := by norm_num
    simp only [wnafStep]
    split_ifs with h1 h2 <;> dsimp only <;> omega

/-- The step shrinks the buffer to at most (x + 15) / 2. -/
lemma wnafStep_contract (x : Nat) : (wnafStep x).2 ≤ (x + 15) / 2 := by
  simp only [wnafStep]
  split_ifs with h1 h2 <;> dsimp only <;> omega

/-- Once the remaining input is exhausted (u < 2^(j+4)), refills add zero. -/
lemma wnafRefill_noop (u uLen x j : Nat) (hu : u < 2 ^ (j + 4)) :
    wnafRefill u uLen x j = x := by
  unfold wnafRefill
  split_ifs with hc
  · obtain ⟨hc1, hc2⟩ := hc
    have he : 16 * ((j + 4) / 16) = j + 4 := by omega
    rw [he, Nat.div_eq_of_lt hu]
    simp
  · rfl

/-- The refill preserves divisibility by 2^c for c ≤ 4 (it adds a multiple
of 16). -/
lemma wnafRefill_dvd (u uLen x j c : Nat) (hc : c ≤ 4) (h : 2 ^ c ∣ x) :
    2 ^ c ∣ wnafRefill u uLen x j := by
  unfold wnafRefill
  split_ifs with hcond
  · exact Nat.dvd_add h
      (Dvd.dvd.mul_left (dvd_trans (pow_dvd_pow 2 hc) (by norm_num)) _)
  · exact h

/-- The refill step preserves the decomposition "buffer at position j plus
the un-injected top of u": the half-word entering at bit 4 of the buffer
moves the un-injected boundary up by 16 bits. -/
lemma refill_val (u uLen x j : Nat) (hu : u < 2 ^ (32 * uLen)) :
    wnafRefill u uLen x j
        + u / 2 ^ (16 * ((j + 4) / 16 + 1)) * 2 ^ (16 * ((j + 4) / 16 + 1) - j)
      = x + u / 2 ^ (16 * ((j + 3) / 16 + 1)) * 2 ^ (16 * ((j + 3) / 16 + 1) - j) := by
  unfold wnafRefill
  by_cases hj : j % 16 = 12
  · have hE : 16 * ((j + 3) / 16 + 1) = j + 4 := by omega
    have hE2 : 16 * ((j + 4) / 16 + 1) = j + 20 := by omega
    rw [hE, hE2]
    by_cases hlt : j < 32 * uLen - 4
    · rw [if_pos ⟨hj, hlt⟩]
      have h16 : 16 * ((j + 4) / 16) = j + 4 := by omega
      rw [h16, show j + 20 - j = 20 from by omega, show j + 4 - j = 4 from by omega]
      have h20 : j + 4 + 16 = j + 20 := by omega
      have hdd : u / 2 ^ (j + 20) = u / 2 ^ (j + 4) / 2 ^ 16 := by
        rw [Nat.div_div_eq_div_mul, ← pow_add, h20]
      rw [hdd]
      omega
    · rw [if_neg (fun h => hlt h.2)]
      have h1 : u / 2 ^ (j + 4) = 0 :=
        Nat.div_eq_of_lt
          (lt_of_lt_of_le hu (Nat.pow_le_pow_right (by norm_num) (by omega)))
      have h2 : u / 2 ^ (j + 20) = 0 :=
        Nat.div_eq_of_lt
          (lt_of_lt_of_le hu (Nat.pow_le_pow_right (by norm_num) (by omega)))
      rw [h1, h2]
      simp
  · have hEq : (j + 4) / 16 = (j + 3) / 16 := by omega
    rw [if_neg (fun h => hj h.1), hEq]

/-- The value invariant of the wNAF loop: the emitted digits, the final
buffer at scale 2^n and the un-injected top of u decompose the initial
buffer plus the pending input. -/
lemma wnafLoop_val (u uLen : Nat) (hu : u < 2 ^ (32 * uLen)) :
    ∀ n x j, u < 2 ^ (j + n + 4) ∨ 32 * uLen ≤ j + n + 4 →
      listVal (wnafLoop u uLen x j n)
        = (x : Int)
          + ((u / 2 ^ (16 * ((j + 3) / 16 + 1)) : Nat) : Int)
            * 2 ^ (16 * ((j + 3) / 16 + 1) - j)
          - 2 ^ n * ((wnafFin u uLen x j n : Nat) : Int) := by
  intro n
  induction n with
  | zero =>
    intro x j hj
    have h0 : u / 2 ^ (16 * ((j + 3) / 16 + 1)) = 0 := by
      apply Nat.div_eq_of_lt
      rcases hj with hj | hj
      · calc u < 2 ^ (j + 0 + 4) := hj
          _ ≤ 2 ^ (16 * ((j + 3) / 16 + 1)) :=
            Nat.pow_le_pow_right (by norm_num) (by omega)
      · calc u < 2 ^ (32 * uLen) := hu
          _ ≤ 2 ^ (16 * ((j + 3) / 16 + 1)) :=
            Nat.pow_le_pow_right (by norm_num) (by omega)
    simp [wnafLoop, listVal, wnafFin, h0]
  | succ n ih =>
    intro x j hj
    simp only [wnafLoop, listVal, wnafFin]
    have hj2 : u < 2 ^ (j + 1 + n + 4) ∨ 32 * uLen ≤ j + 1 + n + 4 := by
      have he : j + 1 + n + 4 = j + (n + 1) + 4 := by omega
      rw [he]
      exact hj
    rw [ih ((wnafStep (wnafRefill u uLen x j)).2) (j + 1) hj2]
    have he4 : j + 1 + 3 = j + 4 := by omega
    rw [he4]
    have hstep := wnafStep_val (wnafRefill u uLen x j)
    have hrefI : ((wnafRefill u uLen x j : Nat) : Int)
        + ((u / 2 ^ (16 * ((j + 4) / 16 + 1)) : Nat) : Int)
          * 2 ^ (16 * ((j + 4) / 16 + 1) - j)
        = (x : Int)
          + ((u / 2 ^ (16 * ((j + 3) / 16 + 1)) : Nat) : Int)
            * 2 ^ (16 * ((j + 3) / 16 + 1) - j) := by
      exact_mod_cast refill_val u uLen x j hu
    have hpow : (2 : Int) ^ (16 * ((j + 4) / 16 + 1) - (j + 1)) * 2
        = 2 ^ (16 * ((j + 4) / 16 + 1) - j) := by
      rw [← pow_succ]
      congr 1
      omega
    rw [← hpow] at hrefI
    linear_combination hstep + hrefI

/-- Every digit of the wNAF loop is zero or odd with |d| ≤ 15. -/
lemma wnafLoop_shape (u uLen : Nat) :
    ∀ n x j d, d ∈ wnafLoop u uLen x j n → d = 0 ∨ (d % 2 = 1 ∧ d.natAbs ≤ 15) := by
  intro n
  induction n with
  | zero => intro x j d hd; simp [wnafLoop] at hd
  | succ n ih =>
    intro x j d hd
    simp only [wnafLoop, List.mem_cons] at hd
    rcases hd with hd | hd
    · rw [hd]
      exact wnafStep_shape _
    · exact ih _ _ _ hd

/-- A buffer divisible by 2^c yields zero digits at the first c positions
(c ≤ 4: refills, being multiples of 16, preserve the divisibility). -/
lemma wnafLoop_zrun (u uLen : Nat) :
    ∀ i c n x j, i < c → c ≤ 4 → 2 ^ c ∣ x →
      (wnafLoop u uLen x j n).getD i 0 = 0 := by
  intro i
  induction i with
  | zero =>
    intro c n x j hic hc4 hdvd
    cases n with
    | zero => simp [wnafLoop]
    | succ n =>
      simp only [wnafLoop]
      rw [List.getD_cons_zero]
      have hx1 : 2 ^ c ∣ wnafRefill u uLen x j := wnafRefill_dvd u uLen x j c hc4 hdvd
      have hev : wnafRefill u uLen x j % 2 = 0 := by
        obtain ⟨t, ht⟩ := dvd_trans (dvd_pow_self 2 (by omega : c ≠ 0)) hx1
        omega
      rw [wnafStep_even _ hev]
  | succ i ihi =>
    intro c n x j hic hc4 hdvd
    obtain ⟨cm, rfl⟩ : ∃ m, c = m + 1 := ⟨c - 1, by omega⟩
    cases n with
    | zero => simp [wnafLoop]
    | succ n =>
      simp only [wnafLoop]
      rw [List.getD_cons_succ]
      have hx1 : 2 ^ (cm + 1) ∣ wnafRefill u uLen x j :=
        wnafRefill_dvd u uLen x j (cm + 1) hc4 hdvd
      have hev : wnafRefill u uLen x j % 2 = 0 := by
        obtain ⟨t, ht⟩ := dvd_trans (dvd_pow_self 2 (by omega : cm + 1 ≠ 0)) hx1
        omega
      rw [wnafStep_even _ hev]
      apply ihi cm n _ (j + 1) (by omega) (by omega)
      obtain ⟨t, ht⟩ := hx1
      refine ⟨t, ?_⟩
      have hps : (2 : Nat) ^ (cm + 1) * t = 2 * (2 ^ cm * t) := by ring
      omega

/-- After a non-zero digit, the next four digits are zero. -/
lemma wnafLoop_gap (u uLen : Nat) :
    ∀ i n x j k, 1 ≤ k → k ≤ 4 →
      (wnafLoop u uLen x j n).getD i 0 ≠ 0 →
      (wnafLoop u uLen x j n).getD (i + k) 0 = 0 := by
  intro i
  induction i with
  | zero =>
    intro n x j k hk1 hk4 hnz
    cases n with
    | zero => simp [wnafLoop] at hnz
    | succ n =>
      simp only [wnafLoop] at hnz ⊢
      rw [List.getD_cons_zero] at hnz
      obtain ⟨km, rfl⟩ : ∃ m, k = m + 1 := ⟨k - 1, by omega⟩
      simp only [Nat.zero_add]
      rw [List.getD_cons_succ]
      rcases wnafStep_div16 (wnafRefill u uLen x j) with h0 | hdvd
      · exact absurd h0 hnz
      · exact wnafLoop_zrun u uLen km 4 n _ (j + 1) (by omega) (by norm_num)
          (by simpa using hdvd)
  | succ i ihi =>
    intro n x j k hk1 hk4 hnz
    cases n with
    | zero => simp [wnafLoop] at hnz
    | succ n =>
      simp only [wnafLoop] at hnz ⊢
      rw [List.getD_cons_succ] at hnz
      rw [show i + 1 + k = i + k + 1 from by omega, List.getD_cons_succ]
      exact ihi n _ (j + 1) k hk1 hk4 hnz

/-- A zero buffer stays zero once the remaining input is exhausted. -/
lemma wnafFin_zero (u uLen : Nat) :
    ∀ n j, u < 2 ^ (j + 4) → wnafFin u uLen 0 j n = 0 := by
  intro n
  induction n with
  | zero => intro j hj; rfl
  | succ n ih =>
    intro j hj
    simp only [wnafFin]
    rw [wnafRefill_noop u uLen 0 j hj, show (wnafStep 0).2 = 0 from rfl]
    exact ih (j + 1) (lt_of_lt_of_le hj (Nat.pow_le_pow_right (by norm_num) (by omega)))

/-- A buffer bounded by 2^q empties within q+1 steps once the remaining
input is exhausted. -/
lemma wnafFin_decay (u uLen : Nat) :
    ∀ n q x j, x ≤ 2 ^ q → q < n → u < 2 ^ (j + 4) → wnafFin u uLen x j n = 0 := by
  intro n
  induction n with
  | zero => intro q x j _ hq _; omega
  | succ n ih =>
    intro q x j hx hq hu4
    simp only [wnafFin]
    rw [wnafRefill_noop u uLen x j hu4]
    have hu5 : u < 2 ^ (j + 1 + 4) :=
      lt_of_lt_of_le hu4 (Nat.pow_le_pow_right (by norm_num) (by omega))
    cases q with
    | zero =>
      have hx1 : x ≤ 1 := by omega
      have hx2 : (wnafStep x).2 = 0 := by
        interval_cases x <;> decide
      rw [hx2]
      exact wnafFin_zero u uLen n (j + 1) hu5
    | succ q =>
      exact ih q ((wnafStep x).2) (j + 1) (wnafStep_decay x q hx) (by omega) hu5

/-- Splitting the final-buffer computation at an intermediate position. -/
lemma wnafFin_add (u uLen : Nat) :
    ∀ a b x j, wnafFin u uLen x j (a + b)
      = wnafFin u uLen (wnafFin u uLen x j a) (j + a) b := by
  intro a
  induction a with
  | zero => intro b x j; simp [wnafFin]
  | succ a ih =>
    intro b x j
    have hab : a + 1 + b = a + b + 1 := by omega
    have hja : j + (a + 1) = j + 1 + a := by omega
    rw [hab, hja]
    simp only [wnafFin]
    exact ih b _ (j + 1)

/-- The refill keeps the buffer within 16 of the injected part of u
scaled to the current position. -/
lemma wnafRefill_bound (u uLen x j : Nat)
    (hx : x ≤ u % 2 ^ (16 * ((j + 3) / 16 + 1)) / 2 ^ j + 16) :
    wnafRefill u uLen x j ≤ u % 2 ^ (16 * ((j + 4) / 16 + 1)) / 2 ^ j + 16 := by
  unfold wnafRefill
  by_cases hj : j % 16 = 12
  · have hE : 16 * ((j + 3) / 16 + 1) = j + 4 := by omega
    have hE2 : 16 * ((j + 4) / 16 + 1) = j + 20 := by omega
    rw [hE] at hx
    rw [hE2]
    have hp : (2 : Nat) ^ (j + 20) = 2 ^ (j + 4) * 2 ^ 16 := by
      rw [show j + 20 = j + 4 + 16 from by omega, pow_add]
    have hkey : u % 2 ^ (j + 20) = u % 2 ^ (j + 4) + 2 ^ (j + 4) * (u / 2 ^ (j + 4) % 2 ^ 16) := by
      rw [hp, Nat.mod_mul]
    have hdiv : u % 2 ^ (j + 20) / 2 ^ j
        = u % 2 ^ (j + 4) / 2 ^ j + u / 2 ^ (j + 4) % 2 ^ 16 * 16 := by
      rw [hkey]
      have hr : 2 ^ (j + 4) * (u / 2 ^ (j + 4) % 2 ^ 16)
          = u / 2 ^ (j + 4) % 2 ^ 16 * 16 * 2 ^ j := by
        rw [show (2 : Nat) ^ (j + 4) = 2 ^ j * 16 from by rw [pow_add]; norm_num]
        ring
      rw [hr, Nat.add_mul_div_right _ _ (pow_pos (by norm_num) j)]
    split_ifs with hcond
    · have h16 : 16 * ((j + 4) / 16) = j + 4 := by omega
      rw [h16]
      omega
    · omega
  · have hEq : (j + 4) / 16 = (j + 3) / 16 := by omega
    rw [hEq]
    split_ifs with hcond
    · exact absurd hcond.1 hj
    · exact hx

/-- The crude buffer invariant: the buffer stays within 16 of the injected
part of u scaled to the current position. -/
lemma wnafFin_bound (u uLen : Nat) :
    ∀ a x j, x ≤ u % 2 ^ (16 * ((j + 3) / 16 + 1)) / 2 ^ j + 16 →
      wnafFin u uLen x j a ≤ u % 2 ^ (16 * ((j + a + 3) / 16 + 1)) / 2 ^ (j + a) + 16 := by
  intro a
  induction a with
  | zero =>
    intro x j hx
    simpa [wnafFin] using hx
  | succ a ih =>
    intro x j hx
    simp only [wnafFin]
    have hx1 := wnafRefill_bound u uLen x j hx
    have hdd : u % 2 ^ (16 * ((j + 4) / 16 + 1)) / 2 ^ j / 2
        = u % 2 ^ (16 * ((j + 4) / 16 + 1)) / 2 ^ (j + 1) := by
      rw [Nat.div_div_eq_div_mul, ← pow_succ]
    have hmid : (wnafStep (wnafRefill u uLen x j)).2
        ≤ u % 2 ^ (16 * ((j + 1 + 3) / 16 + 1)) / 2 ^ (j + 1) + 16 := by
      rw [show j + 1 + 3 = j + 4 from by omega]
      have hc := wnafStep_contract (wnafRefill u uLen x j)
      omega
    have := ih ((wnafStep (wnafRefill u uLen x j)).2) (j + 1) hmid
    rw [show j + (a + 1) = j + 1 + a from by omega]
    exact this

/-- With at least five digits of headroom (32·u < 2^sdLen), the buffer of
the wNAF loop is empty at the end of the digit sequence. -/
lemma wnafFin_top_zero (sdLen u uLen : Nat) (hn : 32 * u < 2 ^ sdLen) :
    wnafFin u uLen (u % 2 ^ 16) 0 sdLen = 0 := by
  rcases Nat.eq_zero_or_pos u with rfl | hupos
  · simp only [Nat.zero_mod]
    exact wnafFin_zero 0 uLen sdLen 0 (by norm_num)
  · have hsd6 : 6 ≤ sdLen := by
      by_contra hlt
      push_neg at hlt
      have : 2 ^ sdLen ≤ 2 ^ 5 := Nat.pow_le_pow_right (by norm_num) (by omega)
      omega
    obtain ⟨m, rfl⟩ : ∃ m, sdLen = m + 5 := ⟨sdLen - 5, by omega⟩
    have hps : (2 : Nat) ^ (m + 5) = 2 ^ m * 32 := by
      rw [pow_add]
      norm_num
    have hum : u < 2 ^ m := by omega
    rcases le_or_lt m 4 with hm4 | hm5
    · have hm16 : (2 : Nat) ^ m ≤ 2 ^ 4 := Nat.pow_le_pow_right (by norm_num) hm4
      have hu16 : u < 2 ^ 16 :=
        lt_of_lt_of_le hum (Nat.pow_le_pow_right (by norm_num) (by omega))
      apply wnafFin_decay u uLen (m + 5) 4 (u % 2 ^ 16) 0 ?_ (by omega) ?_
      · rw [Nat.mod_eq_of_lt hu16]
        omega
      · omega
    · obtain ⟨t, rfl⟩ : ∃ t, m = t + 5 := ⟨m - 5, by omega⟩
      have hsplit : t + 5 + 5 = t + 1 + 9 := by omega
      rw [hsplit, wnafFin_add]
      have hinv : u % 2 ^ 16 ≤ u % 2 ^ (16 * ((0 + 3) / 16 + 1)) / 2 ^ 0 + 16 := by
        norm_num
      have hmid := wnafFin_bound u uLen (t + 1) (u % 2 ^ 16) 0 hinv
      have hmle : u % 2 ^ (16 * ((0 + (t + 1) + 3) / 16 + 1)) / 2 ^ (0 + (t + 1))
          ≤ u / 2 ^ (0 + (t + 1)) :=
        Nat.div_le_div_right (Nat.mod_le _ _)
      have hudiv : u / 2 ^ (0 + (t + 1)) < 16 := by
        apply Nat.div_lt_of_lt_mul
        calc u < 2 ^ (t + 5) := hum
          _ = 2 ^ (0 + (t + 1)) * 16 := by
            rw [show t + 5 = 0 + (t + 1) + 4 from by omega, pow_add]
            norm_num
      apply wnafFin_decay u uLen 9 5 _ (0 + (t + 1)) ?_ (by omega) ?_
      · omega
      · have : (2 : Nat) ^ (0 + (t + 1) + 4) = 2 ^ (t + 5) := by
          rw [show 0 + (t + 1) + 4 = t + 5 from by omega]
        omega

/-- C7 (counterexample): recoding u = 33 = 2^0 + 2^5 emits non-zero digits
at positions 0 and 5, with only four zero digits between them, refuting
the claim that any two non-zero digits enclose at least five zeros. -/
theorem C7_cex :
    uint_recode_wNAF 33 33 1 = [1, 0, 0, 0, 0, 1] ++ List.replicate 27 0 ∧
    ¬ (∀ i j, i < j → (uint_recode_wNAF 33 33 1).getD i 0 ≠ 0 →
        (uint_recode_wNAF 33 33 1).getD j 0 ≠ 0 → i + 6 ≤ j) :=
  ⟨by decide, fun h => by
    have h5 := h 0 5 (by norm_num) (by decide) (by decide)
    omega⟩

/-- C7 (amended): for every input value u of uLen limbs (u < 2^(32·uLen))
and digit count sdLen with at least five bits of headroom
(32·u < 2^sdLen), every digit of `uint_recode_wNAF` is zero or odd with
absolute value at most 15, every digit at distance one to four after a
non-zero digit is zero (non-zero digits are at least five positions apart,
i.e. separated by at least FOUR zeros, not five), and the weighted sum
Σ sd_i·2^i reconstructs u. -/
theorem C7_uint_recode_wNAF (sdLen u uLen : Nat)
    (hu : u < 2 ^ (32 * uLen)) (hn : 32 * u < 2 ^ sdLen) :
    (∀ d ∈ uint_recode_wNAF sdLen u uLen, d = 0 ∨ (d % 2 = 1 ∧ d.natAbs ≤ 15)) ∧
    (∀ i k, 1 ≤ k → k ≤ 4 → (uint_recode_wNAF sdLen u uLen).getD i 0 ≠ 0 →
      (uint_recode_wNAF sdLen u uLen).getD (i + k) 0 = 0) ∧
    listVal (uint_recode_wNAF sdLen u uLen) = (u : Int) := by
  unfold uint_recode_wNAF
  refine ⟨fun d hd => wnafLoop_shape u uLen sdLen _ 0 d hd,
    fun i k hk1 hk4 hnz => wnafLoop_gap u uLen i sdLen _ 0 k hk1 hk4 hnz, ?_⟩
  have hbase : u < 2 ^ (0 + sdLen + 4) := by
    have h1 : u < 2 ^ sdLen := by omega
    exact lt_of_lt_of_le h1 (Nat.pow_le_pow_right (by norm_num) (by omega))
  have hval := wnafLoop_val u uLen hu sdLen (u % 2 ^ 16) 0 (Or.inl hbase)
  rw [wnafFin_top_zero sdLen u uLen hn] at hval
  norm_num at hval
  rw [show (2 : Nat) ^ 16 = 65536 from by norm_num, hval]
  omega

theorem C7_uint_recode_wNAF_witness :
    (33 : Nat) < 2 ^ (32 * 1) ∧ 32 * 33 < 2 ^ 33 ∧
    ((∀ d ∈ uint_recode_wNAF 33 33 1, d = 0 ∨ (d % 2 = 1 ∧ d.natAbs ≤ 15)) ∧
     (∀ i k, 1 ≤ k → k ≤ 4 → (uint_recode_wNAF 33 33 1).getD i 0 ≠ 0 →
       (uint_recode_wNAF 33 33 1).getD (i + k) 0 = 0) ∧
     listVal (uint_recode_wNAF 33 33 1) = ((33 : Nat) : Int)) :=
  ⟨by decide, by decide, C7_uint_recode_wNAF 33 33 1 (by decide) (by decide)⟩
